import Mathlib

/-!
Formal verification development for the AlphaPente Pente engine.

This file gives a shallow embedding, in Lean 4, of the parts of the
repository that the specification talks about:

* `BitBoard` — from `v3/src/core/bitboard.py` (two lists of six machine
  words, one stone bit per cell and player; Python integers are
  arbitrary-precision naturals here, and the Python idiom `x & ~(1 << b)`
  for clearing a bit is rendered as `x ^^^ (x &&& (1 <<< b))`, which is the
  same function on non-negative integers).
* `GameState` — from `python_archive/src/core/game_state.py` (delta-based
  make/undo, custodian captures, five-in-a-row and capture-win detection,
  tournament rule).
* distance rings and the move generator — from
  `v3/src/core/distance_rings.py` and `src/core/move_generator.py`.
* `Pente` — from `src/games/pente.py` (numpy board rendered as a list of
  rows; the incrementally maintained legal-move cache of the source is,
  under every board mutation the class itself performs, exactly the set of
  empty cells, so `get_legal_moves` is embedded as the row-major list of
  empty cells, filtered by the tournament rule when it applies).
* `MoveHeuristic` — from `src/mcts/move_heuristic.py`.
* `MCTS` — from `src/mcts/mcts.py`.  Python floats are rendered as `ℚ`;
  the transcendental functions `math.log`, `math.sqrt`, `math.exp` and the
  random stream of `random.random` / `random.choice` are abstracted as
  function parameters, so every theorem quantifying over them covers every
  concrete run of the source.  Loops whose bound is not syntactic carry a
  fuel parameter; the source loops terminate within a bound, and fuel at
  least that bound makes the embedding agree with the source.

Exceptions (`raise ValueError`) are modelled with `Option`: `none` is the
raised exception, and since the source raises before mutating, the raising
paths return the state unchanged wherever the state is threaded.
-/

/-- Board positions, as in the Python source: pairs of integers
`(row, col)`. -/
abbrev Pos : Type := ℤ × ℤ

/-- Chebyshev distance `max(abs(r1-r2), abs(c1-c2))` between two cells. -/
def cheb (p q : Pos) : ℕ := max (p.1 - q.1).natAbs (p.2 - q.2).natAbs

/-- All cells of a `size × size` board in row-major order — the iteration
order of the Python double loop `for row in range(size): for col in
range(size)`. -/
def allCells (size : ℕ) : List Pos :=
  (List.range size).flatMap fun r => (List.range size).map fun c => (Int.ofNat r, Int.ofNat c)

/-- Guard `0 <= r < size and 0 <= c < size` that the Python source writes
before each board access. -/
def inRangeB (size : ℕ) (r c : ℤ) : Bool :=
  decide (0 ≤ r) && decide (r < (size : ℤ)) && decide (0 ≤ c) && decide (c < (size : ℤ))

/-! ## BitBoard (`v3/src/core/bitboard.py`)

Two parallel vectors of six 64-bit words, one per player.  The Python
words are unbounded non-negative integers whose set bits all lie below 64;
we keep them as `ℕ`.  `x & ~(1 << b)` is written `clearBit x b`. -/

/-- Clear bit `b` of `x`: the Python expression `x & ~(1 << b)` on a
non-negative integer, written xor-of-isolated-bit so that it both computes
in the kernel and has a clean `testBit` description. -/
def clearBit (x b : ℕ) : Nat := x ^^^ (x &&& (1 <<< b))

/-- Set bit `b` of `x`: the Python `x | (1 << b)`. -/
def setBit (x b : ℕ) : Nat := x ||| (1 <<< b)

/-- Test bit `b` of `x`: the Python truthiness of `x & (1 << b)`. -/
def getBit (x b : ℕ) : Bool := x &&& (1 <<< b) != 0

/-- Stone bits for one player: a list of six words as in
`self.player1_bits = [0] * 6`. -/
structure BitBoard where
  player1_bits : List ℕ
  player2_bits : List ℕ
  deriving Repr, DecidableEq

namespace BitBoard

/-- Fresh empty board: `[0] * 6` for each player. -/
def empty : BitBoard := ⟨List.replicate 6 0, List.replicate 6 0⟩

/-- Python `_pos_to_bit_index`: `bit_index = row * 19 + col`, split into
`(bit_index // 64, bit_index % 64)`.  Callers keep `row`/`col` in
`[0, 19)`, where `toNat` is exact. -/
def posToBitIndex (row col : ℤ) : ℕ × ℕ :=
  let bit_index := (row * 19 + col).toNat
  (bit_index / 64, bit_index % 64)

/-- Bit `bi` of a word list, viewing the six words as one 384-bit row of
bits: word `bi / 64`, offset `bi % 64`. -/
def testAt (l : List ℕ) (bi : ℕ) : Bool := (l.getD (bi / 64) 0).testBit (bi % 64)

/-- Update word `bi / 64` with `f word (bi % 64)`. -/
def updAt (l : List ℕ) (bi : ℕ) (f : ℕ → ℕ → ℕ) : List ℕ :=
  l.set (bi / 64) (f (l.getD (bi / 64) 0) (bi % 64))

/-- Python `set_stone`: clear the cell in both players' words, then set it
in the mover's.  The source raises for out-of-range positions or players
outside `{1, -1}`; all call sites in the claims stay in range, and any
player other than `1` takes the `else` (player `-1`) branch as in the
source's `if player == 1 / else`. -/
def set_stone (b : BitBoard) (row col : ℤ) (player : ℤ) : BitBoard :=
  let ci := (posToBitIndex row col).1
  let bp := (posToBitIndex row col).2
  let bi := ci * 64 + bp
  let p1 := updAt b.player1_bits bi clearBit
  let p2 := updAt b.player2_bits bi clearBit
  if player = 1 then ⟨updAt p1 bi setBit, p2⟩ else ⟨p1, updAt p2 bi setBit⟩

/-- Python `remove_stone`: clear the cell in both players' words. -/
def remove_stone (b : BitBoard) (row col : ℤ) : BitBoard :=
  let ci := (posToBitIndex row col).1
  let bp := (posToBitIndex row col).2
  let bi := ci * 64 + bp
  ⟨updAt b.player1_bits bi clearBit, updAt b.player2_bits bi clearBit⟩

/-- Python `get_stone`: `1` if the cell bit is set for player 1, `-1` if
for player 2, else `0`. -/
def get_stone (b : BitBoard) (row col : ℤ) : ℤ :=
  let ci := (posToBitIndex row col).1
  let bp := (posToBitIndex row col).2
  if getBit (b.player1_bits.getD ci 0) bp then 1
  else if getBit (b.player2_bits.getD ci 0) bp then -1
  else 0

/-- Python `is_empty`. -/
def is_empty (b : BitBoard) (row col : ℤ) : Bool := get_stone b row col == 0

/-- Well-formed boards have six words per player, as built by the
constructor. -/
def WF (b : BitBoard) : Prop := b.player1_bits.length = 6 ∧ b.player2_bits.length = 6

/-- Flat bit index of a cell, equal to `row * 19 + col` for in-range
coordinates. -/
def bIdx (row col : ℤ) : ℕ := (row * 19 + col).toNat

end BitBoard

/-! ## MoveDelta and GameState (`python_archive/src/core/game_state.py`)

The archive `GameState` owns a single `BitBoard` and reverses moves with
`MoveDelta` records.  The sibling module `move_delta.py` is not part of
the sources; `MoveDelta` is therefore taken from the specification's data
model (§3): position, player, ordered captured positions, captured player,
and the number of captured pairs. -/

/-- Modelled from the spec: the `MoveDelta` value type of §3, the record
`make_move` returns and `undo_move` consumes (`move_delta.py` itself is
absent from the sources).  `has_captures` is the emptiness test used by
`undo_move`, per the invariant `capture_count == 0 ⇔ captured_positions
is empty`. -/
structure MoveDelta where
  position : Pos
  player : ℤ
  captured_positions : List Pos
  captured_player : ℤ
  capture_count : ℕ
  deriving Repr, DecidableEq

/-- Modelled from the spec: `has_captures` is true when the delta carries
captured stones. -/
def MoveDelta.has_captures (d : MoveDelta) : Bool := !d.captured_positions.isEmpty

/-- Python `GameState.__init__` fields.  The `captures` dict with keys
`1` and `-1` is split into two integer fields. -/
structure GameState where
  board_size : ℕ
  captures_to_win : ℤ
  tournament_rule : Bool
  board : BitBoard
  current_player : ℤ
  move_history : List MoveDelta
  captures1 : ℤ
  capturesM1 : ℤ
  move_count : ℤ
  deriving Repr, DecidableEq

namespace GameState

/-- Python `GameState(board_size, captures_to_win, tournament_rule)`. -/
def init (board_size : ℕ) (captures_to_win : ℤ) (tournament_rule : Bool) : GameState :=
  { board_size := board_size
    captures_to_win := captures_to_win
    tournament_rule := tournament_rule
    board := BitBoard.empty
    current_player := 1
    move_history := []
    captures1 := 0
    capturesM1 := 0
    move_count := 0 }

/-- Lookup of the `captures` dict at key `p` (the source only ever uses
keys `1` and `-1`; any other key raises there, and reads the `-1` entry
here). -/
def captures (s : GameState) (p : ℤ) : ℤ := if p = 1 then s.captures1 else s.capturesM1

end GameState

/-- The eight capture-scan directions, in the order every source class
lists them. -/
def directions8 : List (ℤ × ℤ) :=
  [(0, 1), (1, 0), (1, 1), (1, -1), (0, -1), (-1, 0), (-1, -1), (-1, 1)]

/-- The four line directions of the five-in-a-row scans, in source
order. -/
def directions4 : List (ℤ × ℤ) := [(0, 1), (1, 0), (1, 1), (1, -1)]

namespace GameState

/-- One direction of the `_check_captures` scan: follow
`player, opponent, opponent, player` outward from the placed stone and
remove the two flanked opponent stones when the pattern closes. -/
def checkCapturesDir (b : BitBoard) (size : ℕ) (row col player : ℤ) (d : ℤ × ℤ) :
    List Pos × BitBoard :=
  let opponent := -player
  let r1 := row + d.1
  let c1 := col + d.2
  if inRangeB size r1 c1 && (BitBoard.get_stone b r1 c1 == opponent) then
    let r2 := r1 + d.1
    let c2 := c1 + d.2
    if inRangeB size r2 c2 && (BitBoard.get_stone b r2 c2 == opponent) then
      let r3 := r2 + d.1
      let c3 := c2 + d.2
      if inRangeB size r3 c3 && (BitBoard.get_stone b r3 c3 == player) then
        ([(r1, c1), (r2, c2)], BitBoard.remove_stone (BitBoard.remove_stone b r1 c1) r2 c2)
      else ([], b)
    else ([], b)
  else ([], b)

/-- Python `_check_captures`: fold the eight directions, accumulating the
captured positions in scan order while removing them from the board. -/
def check_captures (b : BitBoard) (size : ℕ) (row col player : ℤ) : List Pos × BitBoard :=
  directions8.foldl
    (fun acc d =>
      let cd := checkCapturesDir acc.2 size row col player d
      (acc.1 ++ cd.1, cd.2))
    ([], b)

/-- Python `make_move`.  The occupied-cell `ValueError` is the `none`
first component; it is raised before any mutation, so the state comes
back untouched in that case. -/
def make_move (s : GameState) (position : Pos) : Option MoveDelta × GameState :=
  let row := position.1
  let col := position.2
  if !(BitBoard.is_empty s.board row col) then (none, s)
  else
    let board1 := BitBoard.set_stone s.board row col s.current_player
    let cc := check_captures board1 s.board_size row col s.current_player
    let captured_positions := cc.1
    let captured_player := if captured_positions.isEmpty then 0 else -s.current_player
    let capture_count := captured_positions.length / 2
    let s1 :=
      if 0 < capture_count then
        (if s.current_player = 1 then { s with captures1 := s.captures1 + capture_count }
         else { s with capturesM1 := s.capturesM1 + capture_count })
      else s
    let delta : MoveDelta :=
      { position := position
        player := s.current_player
        captured_positions := captured_positions
        captured_player := captured_player
        capture_count := capture_count }
    (some delta,
      { s1 with
        board := cc.2
        move_history := s.move_history ++ [delta]
        move_count := s.move_count + 1
        current_player := -s.current_player })

/-- Python `undo_move`: pop the last delta and reverse its effects; with
empty history it returns `None` and leaves the state alone. -/
def undo_move (s : GameState) : Option MoveDelta × GameState :=
  match s.move_history.getLast? with
  | none => (none, s)
  | some delta =>
    let b1 := BitBoard.remove_stone s.board delta.position.1 delta.position.2
    let b2 :=
      if delta.has_captures then
        delta.captured_positions.foldl
          (fun b p => BitBoard.set_stone b p.1 p.2 delta.captured_player) b1
      else b1
    let s1 :=
      { s with
        move_history := s.move_history.dropLast
        current_player := delta.player
        move_count := s.move_count - 1
        board := b2 }
    let s2 :=
      if delta.has_captures then
        (if delta.player = 1 then { s1 with captures1 := s1.captures1 - delta.capture_count }
         else { s1 with capturesM1 := s1.capturesM1 - delta.capture_count })
      else s1
    (some delta, s2)

/-- Python `get_legal_moves`: all empty cells in row-major order, except
that with the tournament rule on, the second move of the game
(`move_count == 1`, player `-1` about to play) is restricted to cells at
Chebyshev distance at least 3 from the centre. -/
def get_legal_moves (s : GameState) : List Pos :=
  let center : ℤ := (s.board_size / 2 : ℕ)
  if s.tournament_rule && (s.move_count == 1) && (s.current_player == -1) then
    (allCells s.board_size).filter fun p =>
      BitBoard.is_empty s.board p.1 p.2 &&
        decide (3 ≤ max (p.1 - center).natAbs (p.2 - center).natAbs)
  else (allCells s.board_size).filter fun p => BitBoard.is_empty s.board p.1 p.2

/-- Forward run of the `while` loop in `_count_line`: number of
consecutive stones of `player` starting at `(r, c)` and stepping by `d`.
The source loop leaves the board after at most `board_size` steps in each
of the four scan directions, so fuel `board_size` is exact. -/
def countDir (b : BitBoard) (size : ℕ) (player : ℤ) (d : ℤ × ℤ) :
    ℕ → ℤ → ℤ → ℕ
  | 0, _, _ => 0
  | fuel + 1, r, c =>
    if inRangeB size r c && (BitBoard.get_stone b r c == player) then
      1 + countDir b size player d fuel (r + d.1) (c + d.2)
    else 0

/-- Python `_count_line`: the starting stone plus the forward and backward
runs. -/
def count_line (b : BitBoard) (size : ℕ) (sr sc : ℤ) (d : ℤ × ℤ) (player : ℤ) : ℕ :=
  1 + countDir b size player d size (sr + d.1) (sc + d.2) +
    countDir b size player (-d.1, -d.2) size (sr - d.1) (sc - d.2)

/-- Python `_check_five_in_row`: scan cells row-major and return the first
stone owning a line of five or more through its cell. -/
def check_five_in_row (s : GameState) : Option ℤ :=
  (allCells s.board_size).findSome? fun p =>
    let stone := BitBoard.get_stone s.board p.1 p.2
    if stone ≠ 0 then
      directions4.findSome? fun d =>
        if 5 ≤ count_line s.board s.board_size p.1 p.2 d stone then some stone else none
    else none

/-- Python `get_winner`: capture wins (player 1 checked first), then the
five-in-a-row scan. -/
def get_winner (s : GameState) : Option ℤ :=
  if s.captures_to_win ≤ s.captures1 then some 1
  else if s.captures_to_win ≤ s.capturesM1 then some (-1)
  else check_five_in_row s

/-- Python `is_terminal`. -/
def is_terminalB (s : GameState) : Bool :=
  (get_winner s).isSome || (get_legal_moves s).isEmpty

/-- State reached by a list of moves (each applied with `make_move`,
keeping the post-state). -/
def apply_move (s : GameState) (p : Pos) : GameState := (make_move s p).2

/-- Fold of `apply_move` over a move list. -/
def play_moves (s : GameState) (ms : List Pos) : GameState := ms.foldl apply_move s

/-- Legal play: each move is drawn from `get_legal_moves` of a state that
is not yet terminal. -/
def valid_play (s : GameState) : List Pos → Bool
  | [] => true
  | m :: ms =>
    !is_terminalB s && decide (m ∈ get_legal_moves s) && valid_play (apply_move s m) ms

end GameState

/-! ## DistanceRings (`v3/src/core/distance_rings.py`)

The class precomputes, for every cell, the list of cells at each exact
Chebyshev distance, appending candidates in row-major scan order; the
table is immutable after construction, so it is embedded as the function
the table tabulates, with the same element order. -/

namespace DistanceRings

/-- Entry `rings[position][distance]` of `_precompute_all_distances`:
cells other than the centre whose Chebyshev distance to it is exactly
`d`, in row-major order. -/
def ringList (size : ℕ) (center : Pos) (d : ℕ) : List Pos :=
  (allCells size).filter fun p => !(p == center) && (cheb p center == d)

/-- Python `get_positions_at_distance`: the table entry, or `[]` for an
out-of-range centre or a distance outside `[1, board_size - 1]`. -/
def get_positions_at_distance (size : ℕ) (cr cc : ℤ) (d : ℕ) : List Pos :=
  if !(inRangeB size cr cc) then []
  else if d < 1 || size - 1 < d then []
  else ringList size (cr, cc) d

/-- Accumulator of `get_ordered_positions_around_stones`: the distance
buckets (index `d - 1`) and the `seen_positions` set (as a list). -/
abbrev OapsAcc : Type := List (List Pos) × List Pos

/-- Inner loop over one ring: append each position not yet seen and not a
stone to its bucket, marking it seen. -/
def oapsRing (stonesSet : List Pos) (d : ℕ) (acc : OapsAcc) (ring : List Pos) : OapsAcc :=
  ring.foldl
    (fun acc p =>
      if !(decide (p ∈ acc.2)) && !(decide (p ∈ stonesSet)) then
        (acc.1.set (d - 1) (acc.1.getD (d - 1) [] ++ [p]), p :: acc.2)
      else acc)
    acc

/-- Middle loop over distances `1 .. min(max_distance, board_size - 1)`
(the source breaks out of `range(1, max_distance + 1)` once the distance
exceeds the table's `max_distance`). -/
def oapsStone (size maxd : ℕ) (stonesSet : List Pos) (acc : OapsAcc) (stone : Pos) : OapsAcc :=
  if !(inRangeB size stone.1 stone.2) then acc
  else
    (List.range' 1 (min maxd (size - 1))).foldl
      (fun acc d => oapsRing stonesSet d acc (ringList size stone d)) acc

/-- Python `get_ordered_positions_around_stones`: outer loop over the
stones, then the buckets concatenated in distance order. -/
def get_ordered_positions_around_stones (size : ℕ) (stone_positions : List Pos)
    (max_distance : ℕ) : List Pos :=
  if stone_positions.isEmpty then []
  else
    let acc := stone_positions.foldl (oapsStone size max_distance stone_positions)
      (List.replicate max_distance [], [])
    acc.1.flatten

/-- Minimum Chebyshev distance from `p` to any stone of the list — the
quantity the claims measure the output order against. -/
def minChebDist (stones : List Pos) (p : Pos) : ℕ := ((stones.map (cheb p)).min?).getD 0

end DistanceRings

/-! ## MoveGenerator (`src/core/move_generator.py`)

The generator owns rings for its configured `board_size` and reads legal
moves and the move history off the game state. -/

namespace MoveGenerator

/-- Python `get_ordered_moves`: stones are the positions recorded in
`move_history`; with no stones yet the legal moves pass through
unfiltered, otherwise the ring-ordered candidates are filtered to legal
moves. -/
def get_ordered_moves (size : ℕ) (game_state : GameState) (max_distance : ℕ) : List Pos :=
  let stone_positions := game_state.move_history.map (·.position)
  if stone_positions.isEmpty then game_state.get_legal_moves
  else
    let ordered := DistanceRings.get_ordered_positions_around_stones size stone_positions
      max_distance
    let legal := game_state.get_legal_moves
    ordered.filter fun p => decide (p ∈ legal)

/-- Visit-count buckets of `get_progressive_widening_moves`:
`<10→(1,15)`, `<100→(2,30)`, `<1000→(3,50)`, else `(5,80)`. -/
def progressive_widening_params (node_visits : ℕ) : ℕ × ℕ :=
  if node_visits < 10 then (1, 15)
  else if node_visits < 100 then (2, 30)
  else if node_visits < 1000 then (3, 50)
  else (5, 80)

/-- Python `get_progressive_widening_moves`: the bucket parameters select
`(max_distance, target_moves)`, then the ordered moves are truncated to
the target, keeping the closest. -/
def get_progressive_widening_moves (size : ℕ) (game_state : GameState)
    (node_visits : ℕ) : List Pos :=
  let md_tm := progressive_widening_params node_visits
  let ordered_moves := get_ordered_moves size game_state md_tm.1
  if md_tm.2 < ordered_moves.length then ordered_moves.take md_tm.2 else ordered_moves

end MoveGenerator

/-! ## Pente (`src/games/pente.py` with `src/games/base_game.py`)

The numpy board is a list of rows.  The class also carries an
incrementally maintained `_legal_moves_cache`; every mutation the class
itself performs keeps that cache equal to the set of empty cells (and
`_verify_cache_consistency` resyncs it otherwise), and the lazily rebuilt
tournament cache is the distance-filtered image of it, so `get_legal_moves`
is embedded as the corresponding row-major lists.  Python's `list(set)`
iteration order is not observable in any claim; row-major order stands in
for it. -/

/-- Read `board[r, c]` of the row-list board (all source reads are guarded
by `0 <= r, c < board_size`; numpy's negative-index wrap-around is never
exercised and is not modelled). -/
def getCell (b : List (List ℤ)) (r c : ℤ) : ℤ := (b.getD r.toNat []).getD c.toNat 0

/-- Write `board[r, c] = v`. -/
def setCell (b : List (List ℤ)) (r c : ℤ) (v : ℤ) : List (List ℤ) :=
  b.set r.toNat ((b.getD r.toNat []).set c.toNat v)

/-- Fields of `Pente` (including those of `BaseGame.__init__`); the
`captures` dict is split into its two entries. -/
structure Pente where
  board_size : ℕ
  captures_to_win : ℤ
  tournament_rule : Bool
  board : List (List ℤ)
  current_player : ℤ
  captures1 : ℤ
  capturesM1 : ℤ
  move_history : List Pos
  move_count : ℕ
  deriving Repr, DecidableEq

namespace Pente

/-- Python `Pente(board_size, captures_to_win, tournament_rule)`. -/
def init (board_size : ℕ) (captures_to_win : ℤ) (tournament_rule : Bool) : Pente :=
  { board_size := board_size
    captures_to_win := captures_to_win
    tournament_rule := tournament_rule
    board := List.replicate board_size (List.replicate board_size 0)
    current_player := 1
    captures1 := 0
    capturesM1 := 0
    move_history := []
    move_count := 0 }

/-- Python `clone`: a deep copy of every mutable field, hence simply the
value in this by-value embedding. -/
def clone (s : Pente) : Pente := s

/-- One direction of Pente's `_check_captures`: remove a flanked opponent
pair and report the number of stones captured in this direction. -/
def checkCapturesDirP (b : List (List ℤ)) (size : ℕ) (row col player : ℤ) (d : ℤ × ℤ) :
    ℕ × List (List ℤ) :=
  let r1 := row + d.1
  let c1 := col + d.2
  if inRangeB size r1 c1 && (getCell b r1 c1 == -player) then
    let r2 := r1 + d.1
    let c2 := c1 + d.2
    if inRangeB size r2 c2 && (getCell b r2 c2 == -player) then
      let r3 := r2 + d.1
      let c3 := c2 + d.2
      if inRangeB size r3 c3 && (getCell b r3 c3 == player) then
        (2, setCell (setCell b r1 c1 0) r2 c2 0)
      else (0, b)
    else (0, b)
  else (0, b)

/-- Python `Pente._check_captures`: total captured stones over the eight
directions, with the board updated as pairs are removed. -/
def check_capturesP (b : List (List ℤ)) (size : ℕ) (row col player : ℤ) :
    ℕ × List (List ℤ) :=
  directions8.foldl
    (fun acc d =>
      let cd := checkCapturesDirP acc.2 size row col player d
      (acc.1 + cd.1, cd.2))
    (0, b)

/-- Python `Pente.make_move`.  The source raises `ValueError` on an
occupied cell before mutating anything; every caller embedded here passes
empty cells, and the occupied branch returns the state unchanged. -/
def make_move (s : Pente) (move : Pos) : Pente :=
  if getCell s.board move.1 move.2 != 0 then s
  else
    let b1 := setCell s.board move.1 move.2 s.current_player
    let cc := check_capturesP b1 s.board_size move.1 move.2 s.current_player
    { s with
      board := cc.2
      move_history := s.move_history ++ [move]
      move_count := s.move_count + 1
      captures1 := if s.current_player = 1 then s.captures1 + cc.1 else s.captures1
      capturesM1 := if s.current_player = 1 then s.capturesM1 else s.capturesM1 + cc.1
      current_player := -s.current_player }

/-- One direction of `_restore_captured_stones`: when the cells one and
two steps out are empty and the third holds the undone player's stone,
re-create an opponent pair there and charge two captured stones back.
The second component accumulates the total subtracted from
`captures[player]`. -/
def restoreDir (size : ℕ) (row col player : ℤ) (acc : List (List ℤ) × ℤ) (d : ℤ × ℤ) :
    List (List ℤ) × ℤ :=
  let r1 := row + d.1
  let c1 := col + d.2
  let r2 := row + 2 * d.1
  let c2 := col + 2 * d.2
  let r3 := row + 3 * d.1
  let c3 := col + 3 * d.2
  if inRangeB size r1 c1 && inRangeB size r2 c2 && inRangeB size r3 c3 then
    if getCell acc.1 r1 c1 == 0 && getCell acc.1 r2 c2 == 0 && getCell acc.1 r3 c3 == player then
      (setCell (setCell acc.1 r1 c1 (-player)) r2 c2 (-player), acc.2 + 2)
    else acc
  else acc

/-- Python `_restore_captured_stones` over the eight directions. -/
def restore_captured_stones (b : List (List ℤ)) (size : ℕ) (row col player : ℤ) :
    List (List ℤ) × ℤ :=
  directions8.foldl (restoreDir size row col player) (b, 0)

/-- Python `Pente.undo_move`: pop the last move, clear its cell, and run
the pattern-based capture restoration; a no-op on empty history. -/
def undo_move (s : Pente) : Pente :=
  match s.move_history.getLast? with
  | none => s
  | some mv =>
    let s1 :=
      { s with
        move_history := s.move_history.dropLast
        move_count := s.move_count - 1 }
    let previous_player := -s.current_player
    let b1 := setCell s1.board mv.1 mv.2 0
    let rc := restore_captured_stones b1 s.board_size mv.1 mv.2 previous_player
    { s1 with
      board := rc.1
      captures1 := if previous_player = 1 then s1.captures1 - rc.2 else s1.captures1
      capturesM1 := if previous_player = 1 then s1.capturesM1 else s1.capturesM1 - rc.2
      current_player := previous_player }

/-- Empty cells in row-major order — the value of the maintained
`_legal_moves_cache`. -/
def emptyCells (s : Pente) : List Pos :=
  (allCells s.board_size).filter fun p => getCell s.board p.1 p.2 == 0

/-- Python `Pente.get_legal_moves`: the cache, filtered by the tournament
rule exactly when `move_count == 2` and player 1 is to move. -/
def get_legal_moves (s : Pente) : List Pos :=
  let center : ℤ := (s.board_size / 2 : ℕ)
  if s.tournament_rule && (s.move_count == 2) && (s.current_player == 1) then
    (emptyCells s).filter fun p =>
      decide (3 ≤ max (p.1 - center).natAbs (p.2 - center).natAbs)
  else emptyCells s

/-- Forward run counter of Pente's `_check_five_in_row` while loops (fuel
`board_size` bounds every ray). -/
def countDirP (b : List (List ℤ)) (size : ℕ) (player : ℤ) (d : ℤ × ℤ) :
    ℕ → ℤ → ℤ → ℕ
  | 0, _, _ => 0
  | fuel + 1, r, c =>
    if inRangeB size r c && (getCell b r c == player) then
      1 + countDirP b size player d fuel (r + d.1) (c + d.2)
    else 0

/-- Line length through a cell for Pente's scan. -/
def count_lineP (b : List (List ℤ)) (size : ℕ) (sr sc : ℤ) (d : ℤ × ℤ) (player : ℤ) : ℕ :=
  1 + countDirP b size player d size (sr + d.1) (sc + d.2) +
    countDirP b size player (-d.1, -d.2) size (sr - d.1) (sc - d.2)

/-- Python `Pente._check_five_in_row`. -/
def check_five_in_rowP (s : Pente) : Option ℤ :=
  (allCells s.board_size).findSome? fun p =>
    let player := getCell s.board p.1 p.2
    if player ≠ 0 then
      directions4.findSome? fun d =>
        if 5 ≤ count_lineP s.board s.board_size p.1 p.2 d player then some player else none
    else none

/-- Python `Pente.get_winner`. -/
def get_winner (s : Pente) : Option ℤ :=
  if s.captures_to_win ≤ s.captures1 then some 1
  else if s.captures_to_win ≤ s.capturesM1 then some (-1)
  else check_five_in_rowP s

/-- Python `Pente.is_terminal`. -/
def is_terminalB (s : Pente) : Bool :=
  (get_winner s).isSome || (get_legal_moves s).isEmpty

end Pente

/-- Stable insertion of `x` into a list sorted by the (total) relation
`ge`: `x` goes before the first element it is strictly preferred over and
after everything it ties with. -/
def sInsert (ge : α → α → Bool) (x : α) : List α → List α
  | [] => [x]
  | y :: ys => if ge x y then x :: y :: ys else y :: sInsert ge x ys

/-- Stable sort by `ge` (greater-or-equal on the sort key): the behaviour
of Python's stable `sorted(..., reverse=True)` and `list.sort(...,
reverse=True)`. -/
def sortDescBy (ge : α → α → Bool) : List α → List α
  | [] => []
  | x :: xs => sInsert ge x (sortDescBy ge xs)

/-- First element maximising `f` under the strict order `lt` — the
behaviour of Python's `max(iterable, key=f)`, which replaces the running
best only on a strictly greater key. -/
def argmaxElem (f : α → β) (lt : β → β → Bool) : List α → Option α
  | [] => none
  | x :: xs => some (xs.foldl (fun acc y => if lt (f acc) (f y) then y else acc) x)

/-- Index form of `argmaxElem`, for updating the selected element in
place. -/
def argmaxIdx (f : α → β) (lt : β → β → Bool) : List α → ℕ
  | [] => 0
  | x :: xs =>
    (xs.foldl
      (fun (acc : ℕ × ℕ × β) y =>
        let k := f y
        if lt acc.2.2 k then (acc.1 + 1, acc.1, k) else (acc.1 + 1, acc.2.1, acc.2.2))
      (1, 0, f x)).2.1

/-! ## MoveHeuristic (`src/mcts/move_heuristic.py`)

Priority scores are integers.  `_is_blocking_win` temporarily rebinds
`self.game.current_player` and restores it, so it is a state transformer
here; `_evaluate_move` threads the game through it. -/

namespace MoveHeuristic

/-- Weight `WEIGHTS['critical']`: win now or block the opponent's win. -/
def Wcritical : ℤ := 100

/-- Weight `WEIGHTS['very_high']`: capture a pair or make an open four. -/
def Wvery_high : ℤ := 50

/-- Weight `WEIGHTS['high']`: make an open three or block one. -/
def Whigh : ℤ := 20

/-- Weight `WEIGHTS['medium']`: within distance 2 of a cluster. -/
def Wmedium : ℤ := 5

/-- Weight `WEIGHTS['low']`: anything else. -/
def Wlow : ℤ := 1

/-- Python `_is_winning_move`: play the move on a clone and test the
winner. -/
def is_winning_move (game : Pente) (move : Pos) (player : ℤ) : Bool :=
  decide (Pente.get_winner (Pente.make_move game.clone move) = some player)

/-- Python `_is_blocking_win`: switch `current_player` to the opponent,
test `_is_winning_move` there, then restore the original player.  The
pair carries the mutated-then-restored game. -/
def is_blocking_winT (game : Pente) (move : Pos) (opponent : ℤ) : Bool × Pente :=
  let original_player := game.current_player
  let g1 := { game with current_player := opponent }
  let is_blocking := is_winning_move g1 move opponent
  (is_blocking, { g1 with current_player := original_player })

/-- Python `_creates_capture`: a `player, opp, opp, player` pattern would
close from the move in some direction. -/
def creates_capture (game : Pente) (move : Pos) (player : ℤ) : Bool :=
  directions8.any fun d =>
    let r1 := move.1 + d.1
    let c1 := move.2 + d.2
    let r2 := move.1 + 2 * d.1
    let c2 := move.2 + 2 * d.2
    let r3 := move.1 + 3 * d.1
    let c3 := move.2 + 3 * d.2
    inRangeB game.board_size r1 c1 && inRangeB game.board_size r2 c2 &&
      inRangeB game.board_size r3 c3 &&
      (getCell game.board r1 c1 == -player) && (getCell game.board r2 c2 == -player) &&
      (getCell game.board r3 c3 == player)

/-- Python `_creates_threat`: hypothetical run length through the move
(counting the stone as placed) with the openness of both ends. -/
def creates_threat (game : Pente) (move : Pos) (player : ℤ) (length : ℕ)
    (open_ends : Bool) : Bool :=
  directions4.any fun d =>
    let size := game.board_size
    let f := Pente.countDirP game.board size player d size (move.1 + d.1) (move.2 + d.2)
    let er := move.1 + (1 + f) * d.1
    let ec := move.2 + (1 + f) * d.2
    let open1 := inRangeB size er ec && (getCell game.board er ec == 0)
    let b := Pente.countDirP game.board size player (-d.1, -d.2) size (move.1 - d.1) (move.2 - d.2)
    let er2 := move.1 - (1 + b) * d.1
    let ec2 := move.2 - (1 + b) * d.2
    let open2 := inRangeB size er2 ec2 && (getCell game.board er2 ec2 == 0)
    (length ≤ 1 + f + b) && (!open_ends || 2 ≤ open1.toNat + open2.toNat)

/-- Python `_creates_open_four`. -/
def creates_open_four (game : Pente) (move : Pos) (player : ℤ) : Bool :=
  creates_threat game move player 4 true

/-- Python `_creates_open_three`. -/
def creates_open_three (game : Pente) (move : Pos) (player : ℤ) : Bool :=
  creates_threat game move player 3 true

/-- Offsets `range(-4, 5)` of `_blocks_open_three`. -/
def offsets9 : List ℤ := [-4, -3, -2, -1, 0, 1, 2, 3, 4]

/-- Python `_blocks_open_three`: walk the nine offsets along each line,
counting opponent stones and resetting on own stones; two or more counts
as a disrupted threat. -/
def blocks_open_three (game : Pente) (move : Pos) (opponent : ℤ) : Bool :=
  directions4.any fun d =>
    let count := offsets9.foldl
      (fun count off =>
        let r := move.1 + off * d.1
        let c := move.2 + off * d.2
        if inRangeB game.board_size r c then
          if getCell game.board r c == opponent then count + 1
          else if getCell game.board r c == -opponent then 0
          else count
        else count)
      0
    2 ≤ count

/-- Integer interval `[lo, hi)` as a list, the range of the Python `for
i in range(lo, hi)` loops. -/
def intRange (lo hi : ℤ) : List ℤ := (List.range (hi - lo).toNat).map fun k => lo + Int.ofNat k

/-- Python `_is_near_cluster` with its default `max_distance = 2`. -/
def is_near_cluster (game : Pente) (move : Pos) : Bool :=
  (intRange (max 0 (move.1 - 2)) (min (game.board_size : ℤ) (move.1 + 3))).any fun i =>
    (intRange (max 0 (move.2 - 2)) (min (game.board_size : ℤ) (move.2 + 3))).any fun j =>
      (getCell game.board i j != 0) && decide (max (i - move.1).natAbs (j - move.2).natAbs ≤ 2)

/-- Python `_evaluate_move`, as a state transformer (the state passes
through `_is_blocking_win`'s rebind-and-restore). -/
def evaluate_moveT (game : Pente) (move : Pos) : ℤ × Pente :=
  let player := game.current_player
  let opponent := -player
  if is_winning_move game move player then (Wcritical, game)
  else
    let bw := is_blocking_winT game move opponent
    if bw.1 then (Wcritical, bw.2)
    else if creates_capture bw.2 move player then (Wvery_high, bw.2)
    else if creates_open_four bw.2 move player then (Wvery_high, bw.2)
    else if creates_open_three bw.2 move player then (Whigh, bw.2)
    else if blocks_open_three bw.2 move opponent then (Whigh, bw.2)
    else if is_near_cluster bw.2 move then (Wmedium, bw.2)
    else (Wlow, bw.2)

/-- Scoring loop of `evaluate_moves`, threading the game through each
`_evaluate_move`. -/
def evaluate_scoresT (game : Pente) : List Pos → List (Pos × ℤ) × Pente
  | [] => ([], game)
  | m :: ms =>
    let e := evaluate_moveT game m
    let rest := evaluate_scoresT e.2 ms
    ((m, e.1) :: rest.1, rest.2)

/-- Python `evaluate_moves`: score each move, then stable-sort by score,
descending. -/
def evaluate_movesT (game : Pente) (moves : List Pos) : List (Pos × ℤ) × Pente :=
  let r := evaluate_scoresT game moves
  (sortDescBy (fun a b => decide (b.2 ≤ a.2)) r.1, r.2)

end MoveHeuristic

/-! ## MCTS (`src/mcts/mcts.py`)

Nodes own their children; the parent pointer of the source exists only
for backpropagation, realised here by the recursion unwinding of
`runStep`.  `math.log` / `math.sqrt` / `math.exp` and the random draws
are parameters (`logF`, `sqrtF`, `expF`, `explore` for
`random.random() < 0.2`, `choice` for `random.choice` indices), indexed
by a running draw counter.  UCB1 scores live in `ℕ × ℚ` ordered
lexicographically, `(1, 0)` standing for the `float('inf')` of an
unvisited child. -/

/-- Fields of `MCTSNode`: cloned game state, incoming move (`none` at the
root), children, visits, accumulated `wins`, and the heuristically
ordered untried moves. -/
inductive Node where
  | mk : Pente → Option Pos → List Node → ℕ → ℚ → List Pos → Node
  deriving Repr

/-- Cloned state stored in the node. -/
def Node.game_state : Node → Pente
  | .mk g _ _ _ _ _ => g

/-- Move that led to this node. -/
def Node.move : Node → Option Pos
  | .mk _ m _ _ _ _ => m

/-- Child list. -/
def Node.children : Node → List Node
  | .mk _ _ c _ _ _ => c

/-- Visit count. -/
def Node.visits : Node → ℕ
  | .mk _ _ _ v _ _ => v

/-- Accumulated backpropagated value. -/
def Node.wins : Node → ℚ
  | .mk _ _ _ _ w _ => w

/-- Heuristically ordered untried moves. -/
def Node.untried : Node → List Pos
  | .mk _ _ _ _ _ u => u

namespace MCTS

/-- Python `MCTSNode.__init__`: clone the state, read the legal moves off
the passed state, and order them by the heuristic (which threads the
passed state).  Returns the node and the threaded state. -/
def mkNodeT (game_state : Pente) (mv : Option Pos) : Node × Pente :=
  let cloned := game_state.clone
  let untried_moves := game_state.get_legal_moves
  if untried_moves.isEmpty then (.mk cloned mv [] 0 0 untried_moves, game_state)
  else
    let r := MoveHeuristic.evaluate_movesT game_state untried_moves
    (.mk cloned mv [] 0 0 (r.1.map Prod.fst), r.2)

/-- Python `ucb1_score` with the source's default `exploration_weight`
abstracted as `c`: `(1, 0)` is `float('inf')` for an unvisited node, and
a visited node scores `(0, (wins/visits + 1)/2 + c·sqrt(log(parent)/
visits))`. -/
def ucb1_score (logF sqrtF : ℚ → ℚ) (c : ℚ) (parent_visits : ℕ) (n : Node) : ℕ × ℚ :=
  if n.visits = 0 then (1, 0)
  else (0, (n.wins / n.visits + 1) / 2 + c * sqrtF (logF parent_visits / n.visits))

/-- Strict lexicographic order on UCB1 scores. -/
def scoreLt (a b : ℕ × ℚ) : Bool :=
  decide (a.1 < b.1) || (decide (a.1 = b.1) && decide (a.2 < b.2))

/-- Python `_calculate_scaled_valuation`: `0.2 + 0.8 * exp(-moves/50)`,
signed for win/loss, `0` for a tie. -/
def calculate_scaled_valuation (expF : ℚ → ℚ) (winner : Option ℤ) (original_player : ℤ)
    (move_count : ℕ) : ℚ :=
  match winner with
  | none => 0
  | some w =>
    let scale_factor := 1 / 5 + 4 / 5 * expF (-(move_count : ℚ) / 50)
    if w = original_player then scale_factor else -scale_factor

/-- Manhattan-centre preference key of `_simulate`'s `distance_score`. -/
def distance_score (size : ℕ) (move : Pos) : ℤ :=
  -((move.1 - (size / 2 : ℕ)).natAbs + (move.2 - (size / 2 : ℕ)).natAbs : ℕ)

/-- Rollout loop of `_simulate`: epsilon-greedy move selection until the
cloned game is terminal.  The counter indexes the random streams; fuel
bounds the loop, which the source exits within `board_size² +
4·(captures_to_win + 16)` moves. -/
def simulateLoop (explore : ℕ → Bool) (choice : ℕ → ℕ) :
    ℕ → Pente → ℕ → Pente × ℕ
  | 0, g, ctr => (g, ctr)
  | fuel + 1, g, ctr =>
    if Pente.is_terminalB g then (g, ctr)
    else
      let legal_moves := g.get_legal_moves
      if legal_moves.isEmpty then (g, ctr)
      else
        let sel : Pos × Pente :=
          if explore ctr then (legal_moves.getD (choice ctr % legal_moves.length) (0, 0), g)
          else
            let candidate_moves :=
              if 10 < legal_moves.length then
                (sortDescBy (fun a b =>
                  decide (distance_score g.board_size b ≤ distance_score g.board_size a))
                  legal_moves).take 10
              else legal_moves
            let e := MoveHeuristic.evaluate_movesT g candidate_moves
            match e.1 with
            | [] => (legal_moves.getD (choice ctr % legal_moves.length) (0, 0), e.2)
            | (m, _) :: _ => (m, e.2)
        simulateLoop explore choice fuel (Pente.make_move sel.2 sel.1) (ctr + 1)

/-- Python `_simulate`: clone, roll out, and scale the terminal value
from the root player's perspective. -/
def simulateT (expF : ℚ → ℚ) (explore : ℕ → Bool) (choice : ℕ → ℕ) (simFuel : ℕ)
    (game_state : Pente) (root_player : ℤ) (ctr : ℕ) : ℚ × ℕ :=
  let r := simulateLoop explore choice simFuel game_state.clone ctr
  (calculate_scaled_valuation expF (Pente.get_winner r.1) root_player r.1.move_count, r.2)

/-- One simulation of `search`'s main loop: `_select_and_expand` descends
by best UCB1 child while fully expanded, expands the first untried move
otherwise, `_simulate`s at the reached leaf, and backpropagates with the
sign flipping once per level (realised on the recursion's way out).  The
descent fuel exceeds the tree depth, which is at most the number of
completed simulations plus one; a non-terminal fully expanded node with no
children cannot arise (expansion precedes), and is treated as a leaf. -/
def runStep (logF sqrtF expF : ℚ → ℚ) (explore : ℕ → Bool) (choice : ℕ → ℕ) (c : ℚ)
    (simFuel : ℕ) (root_player : ℤ) : ℕ → Node → ℕ → Node × ℚ × ℕ
  | 0, n, ctr =>
    let r := simulateT expF explore choice simFuel n.game_state root_player ctr
    (.mk n.game_state n.move n.children (n.visits + 1) (n.wins + r.1) n.untried, r.1, r.2)
  | fuel + 1, n, ctr =>
    if !(Pente.is_terminalB n.game_state) && n.untried.isEmpty && !n.children.isEmpty then
      let i := argmaxIdx (ucb1_score logF sqrtF c n.visits) scoreLt n.children
      let child := n.children.getD i (.mk n.game_state none [] 0 0 [])
      let r := runStep logF sqrtF expF explore choice c simFuel root_player fuel child ctr
      (.mk n.game_state n.move (n.children.set i r.1) (n.visits + 1) (n.wins + -r.2.1)
        n.untried, -r.2.1, r.2.2)
    else if !(Pente.is_terminalB n.game_state) && !n.untried.isEmpty then
      let m := n.untried.headD (0, 0)
      let new_game_state := Pente.make_move n.game_state.clone m
      let child := (mkNodeT new_game_state (some m)).1
      let r := simulateT expF explore choice simFuel child.game_state root_player ctr
      let child' : Node :=
        .mk child.game_state child.move child.children (child.visits + 1)
          (child.wins + r.1) child.untried
      (.mk n.game_state n.move (n.children ++ [child']) (n.visits + 1) (n.wins + -r.1)
        (n.untried.erase m), -r.1, r.2)
    else
      let r := simulateT expF explore choice simFuel n.game_state root_player ctr
      (.mk n.game_state n.move n.children (n.visits + 1) (n.wins + r.1) n.untried, r.1, r.2)

/-- The `for _ in range(self.max_iterations)` loop of `search`. -/
def searchLoop (logF sqrtF expF : ℚ → ℚ) (explore : ℕ → Bool) (choice : ℕ → ℕ) (c : ℚ)
    (simFuel dFuel : ℕ) (root_player : ℤ) : ℕ → Node → ℕ → Node × ℕ
  | 0, n, ctr => (n, ctr)
  | k + 1, n, ctr =>
    let r := runStep logF sqrtF expF explore choice c simFuel root_player dFuel n ctr
    searchLoop logF sqrtF expF explore choice c simFuel dFuel root_player k r.1 r.2.2

/-- First critical-move loop of `search`: the first legal move scoring at
least 100 that actually wins for the current player, threading the
caller's state through `_evaluate_move`. -/
def findCriticalWinT (game_state : Pente) : List Pos → Option Pos × Pente
  | [] => (none, game_state)
  | m :: ms =>
    let e := MoveHeuristic.evaluate_moveT game_state m
    if decide (100 ≤ e.1) && MoveHeuristic.is_winning_move e.2 m e.2.current_player then
      (some m, e.2)
    else findCriticalWinT e.2 ms

/-- Second critical-move loop of `search`: the first legal move scoring
at least 100 that blocks the opponent's win. -/
def findCriticalBlockT (game_state : Pente) : List Pos → Option Pos × Pente
  | [] => (none, game_state)
  | m :: ms =>
    let e := MoveHeuristic.evaluate_moveT game_state m
    if decide (100 ≤ e.1) then
      let bw := MoveHeuristic.is_blocking_winT e.2 m (-e.2.current_player)
      if bw.1 then (some m, bw.2) else findCriticalBlockT bw.2 ms
    else findCriticalBlockT e.2 ms

/-- Python `move_priority` inside `search`: `(0, 0)` for an unvisited
child; otherwise the root-perspective mean value paired with the visit
count, demoted to value `-1` under `max(1, max_iterations / 100)`
visits. -/
def move_priority (max_iterations : ℕ) (child : Node) : ℚ × ℕ :=
  if child.visits = 0 then (0, 0)
  else
    let root_perspective_value := -(child.wins / child.visits)
    let min_visits := max 1 (max_iterations / 100)
    if min_visits ≤ child.visits then (root_perspective_value, child.visits)
    else (-1, child.visits)

/-- Strict lexicographic order on `move_priority` keys — Python's tuple
comparison. -/
def lexLtQN (a b : ℚ × ℕ) : Bool :=
  decide (a.1 < b.1) || (decide (a.1 = b.1) && decide (a.2 < b.2))

/-- Final extraction of `search`: `max(root.children, key=move_priority)`,
whose move is returned (`(0, 0)` stands for the unreachable empty-children
call). -/
def best_move_from_children (children : List Node) (max_iterations : ℕ) : Pos :=
  match argmaxElem (move_priority max_iterations) lexLtQN children with
  | none => (0, 0)
  | some ch => ch.move.getD (0, 0)

/-- Python `MCTS.search`, returning the chosen move together with the
caller's state as left behind by the call (root construction and the
critical-move loops thread it; the tree and the rollouts only ever touch
clones). -/
def search (logF sqrtF expF : ℚ → ℚ) (explore : ℕ → Bool) (choice : ℕ → ℕ) (c : ℚ)
    (max_iterations simFuel : ℕ) (game_state : Pente) : Pos × Pente :=
  let rp := mkNodeT game_state none
  let root_player := game_state.current_player
  let lr := searchLoop logF sqrtF expF explore choice c simFuel (max_iterations + 1)
    root_player max_iterations rp.1 0
  let root := lr.1
  if root.children.isEmpty then
    let legal_moves := rp.2.get_legal_moves
    if legal_moves.isEmpty then ((0, 0), rp.2)
    else
      let r := MoveHeuristic.evaluate_movesT rp.2 legal_moves
      ((r.1.headD ((0, 0), 0)).1, r.2)
  else
    let legal_moves := rp.2.get_legal_moves
    let w := findCriticalWinT rp.2 legal_moves
    match w.1 with
    | some m => (m, w.2)
    | none =>
      let bl := findCriticalBlockT w.2 legal_moves
      match bl.1 with
      | some m => (m, bl.2)
      | none => (best_move_from_children root.children max_iterations, bl.2)

end MCTS

/-- Weak lexicographic order on `move_priority` keys, used to state that
an extracted child's key is maximal. -/
def lexLeQN (a b : ℚ × ℕ) : Prop := a.1 < b.1 ∨ (a.1 = b.1 ∧ a.2 ≤ b.2)

/-- State reached in Pente by a list of moves. -/
def Pente.play_moves (s : Pente) (ms : List Pos) : Pente := ms.foldl Pente.make_move s

/-- Legal play in Pente: each move drawn from `get_legal_moves` of a
non-terminal state. -/
def Pente.valid_play (s : Pente) : List Pos → Bool
  | [] => true
  | m :: ms =>
    !Pente.is_terminalB s && decide (m ∈ Pente.get_legal_moves s) &&
      Pente.valid_play (Pente.make_move s m) ms

/-- Cells the ring walk of `get_ordered_positions_around_stones` can ever
emit: on-board non-stone cells within the clamped maximum distance of
some on-board stone. -/
def nearStones (size maxd : ℕ) (stones : List Pos) (q : Pos) : Prop :=
  q ∉ stones ∧ inRangeB size q.1 q.2 = true ∧
    ∃ s ∈ stones, inRangeB size s.1 s.2 = true ∧ 1 ≤ cheb q s ∧ cheb q s ≤ min maxd (size - 1)

/-- Five-in-a-row as the claim states it: some board cell starts a run of
five consecutive stones of player `p` along a row, column, or either
diagonal (runs longer than five contain such a start). -/
def GameState.hasFiveB (s : GameState) (p : ℤ) : Bool :=
  (allCells s.board_size).any fun st =>
    directions4.any fun d =>
      (List.range 5).all fun k =>
        inRangeB s.board_size (st.1 + k * d.1) (st.2 + k * d.2) &&
          (BitBoard.get_stone s.board (st.1 + k * d.1) (st.2 + k * d.2) == p)

/-- Invariant carried along legal play for claim C7: the board is
well-formed, the player to move is `1` or `-1`, and at most one player
(the last mover) can hold a capture win or a five-in-a-row. -/
def c7Inv (thr : ℤ) (s : GameState) : Prop :=
  BitBoard.WF s.board ∧ (s.current_player = 1 ∨ s.current_player = -1) ∧
    ∃ m, (m = 1 ∨ m = -1) ∧ ∀ q, (q = 1 ∨ q = -1) → q ≠ m →
      GameState.captures s q < thr ∧ GameState.hasFiveB s q = false

/-! ## Concrete states used by the claims -/

/-- Archive game on the default 19×19 tournament board after player 1's
centre move `(9, 9)`. -/
def gsAfterCenter : GameState := GameState.apply_move (GameState.init 19 5 true) (9, 9)

/-- Pente game on the default 19×19 tournament board after player 1's
centre move `(9, 9)`. -/
def pAfterCenter : Pente := Pente.make_move (Pente.init 19 5 true) (9, 9)

/-- Pente game (7×7, tournament off) after `(0, 0)` by player 1 and
`(5, 5)` by player −1. -/
def penteC1_two : Pente := Pente.make_move (Pente.make_move (Pente.init 7 5 false) (0, 0)) (5, 5)

/-- The same game after player 1's capture-free follow-up `(0, 3)`. -/
def penteC1_three : Pente := Pente.make_move penteC1_two (0, 3)

/-- Pente position of spec §8's end-to-end scenario: 7×7, tournament
off, player 1 stones on `(3, 1) .. (3, 4)`, player −1 to move (board set
up directly, as the repository's tests do via `_sync`). -/
def penteC9 : Pente :=
  { Pente.init 7 5 false with
    board := setCell (setCell (setCell (setCell
      (Pente.init 7 5 false).board 3 1 1) 3 2 1) 3 3 1) 3 4 1
    current_player := -1 }

/-- Archive game in which player 1's move `(5, 8)` captured the pair
`(5, 6)`, `(5, 7)`. -/
def gsCapture : GameState :=
  GameState.play_moves (GameState.init 19 5 false) [(5, 5), (5, 6), (9, 9), (5, 7), (5, 8)]

/-- Placeholder state for hand-built statistics nodes. -/
def dummyPente : Pente := Pente.init 1 5 false

/-- Hand-built root child: move `(0, 0)`, 3 visits, mean value `0`. -/
def nodeA : Node := .mk dummyPente (some (0, 0)) [] 3 0 []

/-- Hand-built root child: move `(1, 1)`, 1 visit, mean value `-1` (so
its root-perspective value is `1`). -/
def nodeB : Node := .mk dummyPente (some (1, 1)) [] 1 (-1) []

/-- Move list reaching a blocked four: player 1 builds
`(3, 1) .. (3, 4)` while player −1 blocks both ends. -/
def c7moves : List Pos := [(3, 1), (3, 0), (3, 2), (3, 5), (3, 3), (0, 0), (3, 4), (0, 1)]

/-- The blocked-four archive state on a 7×7 board. -/
def gsBlockedFour : GameState := GameState.play_moves (GameState.init 7 5 false) c7moves

/-! ## DEFINITIONS ABOVE / THEOREMS BELOW -/

theorem mem_allCells {size : ℕ} {p : Pos} :
    p ∈ allCells size ↔ inRangeB size p.1 p.2 = true := by
  obtain ⟨x, y⟩ := p
  rw [allCells, List.mem_flatMap]
  constructor
  · rintro ⟨a, ha, hmem⟩
    rw [List.mem_map] at hmem
    obtain ⟨c, hc, heq⟩ := hmem
    rw [List.mem_range] at ha hc
    rw [Prod.mk.injEq] at heq
    simp only [Int.ofNat_eq_coe] at heq
    simp only [inRangeB, Bool.and_eq_true, decide_eq_true_eq]
    omega
  · intro h
    simp only [inRangeB, Bool.and_eq_true, decide_eq_true_eq] at h
    refine ⟨x.toNat, ?_, ?_⟩
    · rw [List.mem_range]; omega
    · rw [List.mem_map]
      refine ⟨y.toNat, ?_, ?_⟩
      · rw [List.mem_range]; omega
      · rw [Prod.mk.injEq]
        simp only [Int.ofNat_eq_coe]
        omega

theorem testBit_clearBit (x b i : ℕ) :
    (clearBit x b).testBit i = ((x.testBit i) && !(decide (b = i))) := by
  simp only [clearBit, Nat.shiftLeft_eq, one_mul, Nat.testBit_xor, Nat.testBit_land,
    Nat.testBit_two_pow]
  cases h : x.testBit i <;> cases hbi : decide (b = i) <;> simp_all

theorem testBit_setBit (x b i : ℕ) :
    (setBit x b).testBit i = ((x.testBit i) || decide (b = i)) := by
  simp [setBit, Nat.shiftLeft_eq, Nat.testBit_lor, Nat.testBit_two_pow]

theorem getBit_eq_testBit (x b : ℕ) : getBit x b = x.testBit b := by
  simp only [getBit, Nat.shiftLeft_eq, one_mul, Nat.and_two_pow]
  cases hb : x.testBit b <;> simp [(Nat.two_pow_pos b).ne']

namespace BitBoard

theorem testAt_updAt_set (l : List ℕ) (bi bj : ℕ) (hlen : bi / 64 < l.length) :
    testAt (updAt l bi setBit) bj = (testAt l bj || decide (bi = bj)) := by
  simp only [testAt, updAt, List.getD_eq_getElem?_getD]
  rcases eq_or_ne (bi / 64) (bj / 64) with h | h
  · rw [← h, List.getElem?_set_self hlen, Option.getD_some, testBit_setBit]
    congr 1
    rcases eq_or_ne bi bj with rfl | hne
    · simp
    · have : ¬ bi % 64 = bj % 64 := by
        intro hmod; exact hne (by omega)
      simp [this, hne]
  · rw [List.getElem?_set_ne h]
    have : bi ≠ bj := by intro hh; exact h (by rw [hh])
    simp [this]

theorem testAt_updAt_clear (l : List ℕ) (bi bj : ℕ) (hlen : bi / 64 < l.length) :
    testAt (updAt l bi clearBit) bj = (testAt l bj && !(decide (bi = bj))) := by
  simp only [testAt, updAt, List.getD_eq_getElem?_getD]
  rcases eq_or_ne (bi / 64) (bj / 64) with h | h
  · rw [← h, List.getElem?_set_self hlen, Option.getD_some, testBit_clearBit]
    congr 1
    rcases eq_or_ne bi bj with rfl | hne
    · simp
    · have : ¬ bi % 64 = bj % 64 := by
        intro hmod; exact hne (by omega)
      simp [this, hne]
  · rw [List.getElem?_set_ne h]
    have : bi ≠ bj := by intro hh; exact h (by rw [hh])
    simp [this]

theorem length_updAt (l : List ℕ) (bi : ℕ) (f : ℕ → ℕ → ℕ) :
    (updAt l bi f).length = l.length := List.length_set ..

theorem empty_WF : WF empty := ⟨List.length_replicate .., List.length_replicate ..⟩

theorem posToBitIndex_eq (row col : ℤ) :
    posToBitIndex row col = (bIdx row col / 64, bIdx row col % 64) := rfl

theorem bIdx_lt (row col : ℤ) (h : inRangeB 19 row col = true) : bIdx row col < 361 := by
  simp only [inRangeB, Bool.and_eq_true, decide_eq_true_eq] at h
  simp only [bIdx]
  omega

theorem bIdx_inj {r c r' c' : ℤ} (h : inRangeB 19 r c = true)
    (h' : inRangeB 19 r' c' = true) (heq : bIdx r c = bIdx r' c') : r = r' ∧ c = c' := by
  simp only [inRangeB, Bool.and_eq_true, decide_eq_true_eq] at h h'
  simp only [bIdx] at heq
  omega

theorem chunk_mul_add (n : ℕ) : n / 64 * 64 + n % 64 = n := by omega

theorem get_stone_eq_testAt (b : BitBoard) (row col : ℤ) :
    get_stone b row col =
      (if testAt b.player1_bits (bIdx row col) then 1
       else if testAt b.player2_bits (bIdx row col) then -1 else 0) := by
  simp only [get_stone, posToBitIndex_eq, testAt, getBit_eq_testBit]

theorem set_stone_eq (b : BitBoard) (row col : ℤ) (player : ℤ) :
    set_stone b row col player =
      (let bi := bIdx row col
       let p1 := updAt b.player1_bits bi clearBit
       let p2 := updAt b.player2_bits bi clearBit
       if player = 1 then ⟨updAt p1 bi setBit, p2⟩ else ⟨p1, updAt p2 bi setBit⟩) := by
  simp only [set_stone, posToBitIndex_eq, chunk_mul_add]

theorem remove_stone_eq (b : BitBoard) (row col : ℤ) :
    remove_stone b row col =
      ⟨updAt b.player1_bits (bIdx row col) clearBit,
       updAt b.player2_bits (bIdx row col) clearBit⟩ := by
  simp only [remove_stone, posToBitIndex_eq, chunk_mul_add]

theorem set_stone_WF {b : BitBoard} (hb : WF b) (row col player : ℤ) :
    WF (set_stone b row col player) := by
  rw [set_stone_eq]
  obtain ⟨h1, h2⟩ := hb
  by_cases hp : player = 1 <;> simp [hp, WF, length_updAt, h1, h2]

theorem remove_stone_WF {b : BitBoard} (hb : WF b) (row col : ℤ) :
    WF (remove_stone b row col) := by
  rw [remove_stone_eq]
  obtain ⟨h1, h2⟩ := hb
  exact ⟨by simp [length_updAt, h1], by simp [length_updAt, h2]⟩

theorem div64_lt {row col : ℤ} (h : inRangeB 19 row col = true) {l : List ℕ}
    (hl : l.length = 6) : bIdx row col / 64 < l.length := by
  have := bIdx_lt row col h
  omega

theorem get_stone_set_stone_self {b : BitBoard} (hb : WF b) {row col : ℤ}
    (h : inRangeB 19 row col = true) (player : ℤ) :
    get_stone (set_stone b row col player) row col = if player = 1 then 1 else -1 := by
  rw [set_stone_eq, get_stone_eq_testAt]
  by_cases hp : player = 1 <;>
    simp [hp, testAt_updAt_set, testAt_updAt_clear, div64_lt h hb.1, div64_lt h hb.2,
      length_updAt]

theorem get_stone_set_stone_ne {b : BitBoard} (hb : WF b) {row col row' col' : ℤ}
    (h : inRangeB 19 row col = true) (h' : inRangeB 19 row' col' = true)
    (hne : (row', col') ≠ (row, col)) (player : ℤ) :
    get_stone (set_stone b row col player) row' col' = get_stone b row' col' := by
  have hidx : bIdx row col ≠ bIdx row' col' := by
    intro heq
    obtain ⟨hr, hc⟩ := bIdx_inj h h' heq
    exact hne (by rw [hr, hc])
  rw [set_stone_eq, get_stone_eq_testAt, get_stone_eq_testAt]
  by_cases hp : player = 1 <;>
    simp [hp, testAt_updAt_set, testAt_updAt_clear, div64_lt h hb.1, div64_lt h hb.2,
      length_updAt, hidx]

theorem get_stone_remove_stone_self {b : BitBoard} (hb : WF b) {row col : ℤ}
    (h : inRangeB 19 row col = true) :
    get_stone (remove_stone b row col) row col = 0 := by
  rw [remove_stone_eq, get_stone_eq_testAt]
  simp [testAt_updAt_clear, div64_lt h hb.1, div64_lt h hb.2]

theorem get_stone_remove_stone_ne {b : BitBoard} (hb : WF b) {row col row' col' : ℤ}
    (h : inRangeB 19 row col = true) (h' : inRangeB 19 row' col' = true)
    (hne : (row', col') ≠ (row, col)) :
    get_stone (remove_stone b row col) row' col' = get_stone b row' col' := by
  have hidx : bIdx row col ≠ bIdx row' col' := by
    intro heq
    obtain ⟨hr, hc⟩ := bIdx_inj h h' heq
    exact hne (by rw [hr, hc])
  rw [remove_stone_eq, get_stone_eq_testAt, get_stone_eq_testAt]
  simp [testAt_updAt_clear, div64_lt h hb.1, div64_lt h hb.2, hidx]

theorem get_stone_cases (b : BitBoard) (row col : ℤ) :
    get_stone b row col = 0 ∨ get_stone b row col = 1 ∨ get_stone b row col = -1 := by
  rw [get_stone_eq_testAt]
  by_cases h1 : testAt b.player1_bits (bIdx row col) <;>
    by_cases h2 : testAt b.player2_bits (bIdx row col) <;> simp [h1, h2]

theorem get_stone_empty_bb (row col : ℤ) : get_stone empty row col = 0 := by
  rw [get_stone_eq_testAt]
  have h1 : ∀ bi, testAt (List.replicate 6 (0 : ℕ)) bi = false := by
    intro bi
    simp only [testAt, List.getD_eq_getElem?_getD, List.getElem?_replicate]
    by_cases h : bi / 64 < 6 <;> simp [h]
  rw [show BitBoard.empty.player1_bits = List.replicate 6 0 from rfl,
    show BitBoard.empty.player2_bits = List.replicate 6 0 from rfl, h1]
  simp

end BitBoard


/-! ## State-threading lemmas for the heuristic and the search

Every operation `MCTS.search` applies to the caller's state either only
reads it or (in `_is_blocking_win`) rebinds `current_player` and restores
it; these lemmas record that each threaded state comes back equal. -/

namespace MoveHeuristic

theorem is_blocking_winT_snd (g : Pente) (m : Pos) (o : ℤ) :
    (is_blocking_winT g m o).2 = g := rfl

theorem is_blocking_winT_eq (g : Pente) (m : Pos) (o : ℤ) :
    is_blocking_winT g m o = ((is_blocking_winT g m o).1, g) := rfl

theorem evaluate_moveT_snd (g : Pente) (m : Pos) : (evaluate_moveT g m).2 = g := by
  simp only [evaluate_moveT]
  rw [is_blocking_winT_eq]
  split
  · rfl
  · split
    · rfl
    · split
      · rfl
      · split
        · rfl
        · split
          · rfl
          · split
            · rfl
            · split <;> rfl

theorem evaluate_moveT_eq (g : Pente) (m : Pos) :
    evaluate_moveT g m = ((evaluate_moveT g m).1, g) := by
  rw [show ((evaluate_moveT g m).1, g) = ((evaluate_moveT g m).1, (evaluate_moveT g m).2) from
    by rw [evaluate_moveT_snd]]

theorem evaluate_scoresT_snd (ms : List Pos) : ∀ g : Pente, (evaluate_scoresT g ms).2 = g := by
  induction ms with
  | nil => intro g; rfl
  | cons m ms ih =>
    intro g
    show (evaluate_scoresT g (m :: ms)).2 = g
    simp only [evaluate_scoresT]
    rw [evaluate_moveT_eq]
    exact ih g

theorem evaluate_movesT_snd (g : Pente) (ms : List Pos) : (evaluate_movesT g ms).2 = g := by
  simp only [evaluate_movesT]
  rw [show (evaluate_scoresT g ms) = ((evaluate_scoresT g ms).1, g) from by
    rw [show ((evaluate_scoresT g ms).1, g) =
      ((evaluate_scoresT g ms).1, (evaluate_scoresT g ms).2) from by rw [evaluate_scoresT_snd]]]

theorem evaluate_movesT_eq (g : Pente) (ms : List Pos) :
    evaluate_movesT g ms = ((evaluate_movesT g ms).1, g) := by
  rw [show ((evaluate_movesT g ms).1, g) =
    ((evaluate_movesT g ms).1, (evaluate_movesT g ms).2) from by rw [evaluate_movesT_snd]]

end MoveHeuristic

namespace MCTS

theorem mkNodeT_snd (g : Pente) (mv : Option Pos) : (mkNodeT g mv).2 = g := by
  simp only [mkNodeT]
  split
  · rfl
  · rw [MoveHeuristic.evaluate_movesT_eq]

theorem mkNodeT_eq (g : Pente) (mv : Option Pos) :
    mkNodeT g mv = ((mkNodeT g mv).1, g) := by
  rw [show ((mkNodeT g mv).1, g) = ((mkNodeT g mv).1, (mkNodeT g mv).2) from by
    rw [mkNodeT_snd]]

theorem findCriticalWinT_snd (ms : List Pos) : ∀ g : Pente,
    (findCriticalWinT g ms).2 = g := by
  induction ms with
  | nil => intro g; rfl
  | cons m ms ih =>
    intro g
    show (findCriticalWinT g (m :: ms)).2 = g
    simp only [findCriticalWinT]
    rw [MoveHeuristic.evaluate_moveT_eq]
    split
    · rfl
    · exact ih g

theorem findCriticalWinT_eq (g : Pente) (ms : List Pos) :
    findCriticalWinT g ms = ((findCriticalWinT g ms).1, g) := by
  rw [show ((findCriticalWinT g ms).1, g) =
    ((findCriticalWinT g ms).1, (findCriticalWinT g ms).2) from by rw [findCriticalWinT_snd]]

theorem findCriticalBlockT_snd (ms : List Pos) : ∀ g : Pente,
    (findCriticalBlockT g ms).2 = g := by
  induction ms with
  | nil => intro g; rfl
  | cons m ms ih =>
    intro g
    show (findCriticalBlockT g (m :: ms)).2 = g
    simp only [findCriticalBlockT]
    rw [MoveHeuristic.evaluate_moveT_eq]
    split
    · rw [MoveHeuristic.is_blocking_winT_eq]
      split
      · rfl
      · exact ih g
    · exact ih g

theorem findCriticalBlockT_eq (g : Pente) (ms : List Pos) :
    findCriticalBlockT g ms = ((findCriticalBlockT g ms).1, g) := by
  rw [show ((findCriticalBlockT g ms).1, g) =
    ((findCriticalBlockT g ms).1, (findCriticalBlockT g ms).2) from by
      rw [findCriticalBlockT_snd]]

end MCTS

/-- Claim C5 (confirmed): for every input state — in particular every
non-terminal one — and every run of the abstracted float and random
streams, `MCTS.search` hands the caller's `GameState` back exactly as it
received it: board, `current_player`, `captures`, `move_count`, and
`move_history` are all unchanged (the record equality covers every
field).  The tree and the rollouts work on clones only, and the
heuristic's `current_player` rebind is always restored. -/
theorem c5_search_leaves_state_unchanged (logF sqrtF expF : ℚ → ℚ) (explore : ℕ → Bool)
    (choice : ℕ → ℕ) (c : ℚ) (max_iterations simFuel : ℕ) (game_state : Pente) :
    (MCTS.search logF sqrtF expF explore choice c max_iterations simFuel game_state).2 =
      game_state := by
  simp only [MCTS.search, MCTS.mkNodeT_snd, MCTS.findCriticalWinT_snd,
    MCTS.findCriticalBlockT_snd, MoveHeuristic.evaluate_movesT_snd]
  split
  · split <;> rfl
  · split
    · rfl
    · split <;> rfl

/-! ## Claim C8 -/

/-- Claim C8 (confirmed): for an in-range position, `make_move` raises
(`none`) exactly when the cell is occupied, and on that failure the state
is returned unchanged — the occupancy check precedes every mutation. -/
theorem c8_make_move_occupied_failure (s : GameState) (pos : Pos)
    (h : inRangeB s.board_size pos.1 pos.2 = true) :
    ((GameState.make_move s pos).1 = none ↔
      BitBoard.get_stone s.board pos.1 pos.2 ≠ 0) ∧
    (BitBoard.get_stone s.board pos.1 pos.2 ≠ 0 → (GameState.make_move s pos).2 = s) := by
  cases he : BitBoard.is_empty s.board pos.1 pos.2 with
  | false =>
    have hmm : GameState.make_move s pos = (none, s) := by
      simp [GameState.make_move, he]
    have hg : BitBoard.get_stone s.board pos.1 pos.2 ≠ 0 := by
      simpa [BitBoard.is_empty] using he
    exact ⟨⟨fun _ => hg, fun _ => by rw [hmm]⟩, fun _ => by rw [hmm]⟩
  | true =>
    have hg : BitBoard.get_stone s.board pos.1 pos.2 = 0 := by
      simpa [BitBoard.is_empty] using he
    have hsome : (GameState.make_move s pos).1 ≠ none := by
      simp [GameState.make_move, he]
    exact ⟨⟨fun h1 => absurd h1 hsome, fun h2 => absurd hg h2⟩, fun h2 => absurd hg h2⟩

set_option maxRecDepth 8000 in
/-- Witness for C8 at a concrete input: on the 19×19 board with the
centre occupied, `make_move (9, 9)` fails and leaves the state intact. -/
theorem c8_witness :
    inRangeB gsAfterCenter.board_size 9 9 = true ∧
    (GameState.make_move gsAfterCenter (9, 9)).1 = none ∧
    (GameState.make_move gsAfterCenter (9, 9)).2 = gsAfterCenter :=
  ⟨by decide,
    (c8_make_move_occupied_failure gsAfterCenter (9, 9) (by decide)).1.mpr (by decide),
    (c8_make_move_occupied_failure gsAfterCenter (9, 9) (by decide)).2 (by decide)⟩

/-! ## Claim C2 -/

set_option maxRecDepth 8000 in
/-- Counterexample to claim C2 as stated: in the archive `GameState`
(one of the two cited implementations), after player 1's centre move the
*second* player's immediate reply is already restricted — `(9, 10)` is
empty yet not legal — while the third move of the game is unrestricted
(`(9, 10)` is legal again).  The claim asserts the exact opposite for
both moves. -/
theorem c2_counterexample_archive :
    BitBoard.get_stone gsAfterCenter.board 9 10 = 0 ∧
    ((9, 10) : Pos) ∉ GameState.get_legal_moves gsAfterCenter ∧
    ((9, 12) : Pos) ∈ GameState.get_legal_moves gsAfterCenter ∧
    ((9, 10) : Pos) ∈ GameState.get_legal_moves (GameState.apply_move gsAfterCenter (0, 0)) := by
  decide

/-! ## Claim C1 -/

set_option maxRecDepth 8000 in
/-- Claim C1 (code bug in `Pente.undo_move`): after the capture-free
moves `(0,0)`, `(5,5)`, `(0,3)` on an empty 7×7 board, a single
`undo_move` does not restore the pre-move state: the pattern-based
`_restore_captured_stones` fabricates opponent stones on the empty cells
`(0,1)` and `(0,2)` and drives `captures[1]` to `-2`, although the undone
move captured nothing. -/
theorem c1_pente_undo_corrupts_state :
    Pente.undo_move penteC1_three ≠ penteC1_two ∧
    penteC1_three.captures1 = 0 ∧
    getCell penteC1_two.board 0 1 = 0 ∧
    getCell penteC1_two.board 0 2 = 0 ∧
    getCell (Pente.undo_move penteC1_three).board 0 1 = -1 ∧
    getCell (Pente.undo_move penteC1_three).board 0 2 = -1 ∧
    (Pente.undo_move penteC1_three).captures1 = -2 ∧
    penteC1_two.captures1 = 0 := by
  decide

/-! ## Claim C3 -/

theorem lexLtQN_iff (a b : ℚ × ℕ) :
    MCTS.lexLtQN a b = true ↔ (a.1 < b.1 ∨ (a.1 = b.1 ∧ a.2 < b.2)) := by
  simp [MCTS.lexLtQN]

theorem lexLeQN_refl (a : ℚ × ℕ) : lexLeQN a a := Or.inr ⟨rfl, le_refl _⟩

theorem lexLeQN_trans {a b c : ℚ × ℕ} (h1 : lexLeQN a b) (h2 : lexLeQN b c) : lexLeQN a c := by
  rcases h1 with h1 | ⟨h1, h1'⟩ <;> rcases h2 with h2 | ⟨h2, h2'⟩
  · exact Or.inl (h1.trans h2)
  · exact Or.inl (h2 ▸ h1)
  · exact Or.inl (h1 ▸ h2)
  · exact Or.inr ⟨h1.trans h2, h1'.trans h2'⟩

theorem lexLeQN_of_lt {a b : ℚ × ℕ} (h : MCTS.lexLtQN a b = true) : lexLeQN a b := by
  rcases (lexLtQN_iff a b).mp h with h | ⟨h, h'⟩
  · exact Or.inl h
  · exact Or.inr ⟨h, le_of_lt h'⟩

theorem lexLeQN_of_not_lt {a b : ℚ × ℕ} (h : MCTS.lexLtQN a b = false) : lexLeQN b a := by
  have h' := (lexLtQN_iff a b).not.mp (by simp [h])
  push_neg at h'
  rcases lt_trichotomy a.1 b.1 with hlt | heq | hgt
  · exact absurd hlt (not_lt.mpr h'.1)
  · exact Or.inr ⟨heq.symm, h'.2 heq⟩
  · exact Or.inl hgt

/-- The fold of `argmaxElem` returns an element of the list whose key is
lexicographically maximal (the first such, per Python `max`). -/
theorem argmaxElem_spec {α : Type} (f : α → ℚ × ℕ) (x : α) (xs : List α) :
    ∃ r ∈ x :: xs, argmaxElem f MCTS.lexLtQN (x :: xs) = some r ∧
      ∀ y ∈ x :: xs, lexLeQN (f y) (f r) := by
  suffices h : ∀ (xs : List α) (b : α),
      (xs.foldl (fun acc y => if MCTS.lexLtQN (f acc) (f y) then y else acc) b) ∈ b :: xs ∧
      lexLeQN (f b)
        (f (xs.foldl (fun acc y => if MCTS.lexLtQN (f acc) (f y) then y else acc) b)) ∧
      ∀ y ∈ xs, lexLeQN (f y)
        (f (xs.foldl (fun acc y => if MCTS.lexLtQN (f acc) (f y) then y else acc) b)) by
    obtain ⟨h1, h2, h3⟩ := h xs x
    refine ⟨_, h1, rfl, ?_⟩
    intro y hy
    rcases List.mem_cons.mp hy with rfl | hy
    · exact h2
    · exact h3 y hy
  intro xs
  induction xs with
  | nil => exact fun b => ⟨List.mem_singleton_self b, lexLeQN_refl _, by simp⟩
  | cons y ys ih =>
    intro b
    simp only [List.foldl_cons]
    by_cases hlt : MCTS.lexLtQN (f b) (f y) = true
    · rw [if_pos hlt]
      obtain ⟨h1, h2, h3⟩ := ih y
      refine ⟨?_, ?_, ?_⟩
      · rcases List.mem_cons.mp h1 with h | h
        · rw [h]; exact List.mem_cons_of_mem _ (List.mem_cons_self ..)
        · exact List.mem_cons_of_mem _ (List.mem_cons_of_mem _ h)
      · exact lexLeQN_trans (lexLeQN_of_lt hlt) h2
      · intro z hz
        rcases List.mem_cons.mp hz with rfl | hz
        · exact h2
        · exact h3 z hz
    · rw [if_neg hlt]
      obtain ⟨h1, h2, h3⟩ := ih b
      refine ⟨?_, h2, ?_⟩
      · rcases List.mem_cons.mp h1 with h | h
        · rw [h]; exact List.mem_cons_self ..
        · exact List.mem_cons_of_mem _ (List.mem_cons_of_mem _ h)
      · intro z hz
        rcases List.mem_cons.mp hz with rfl | hz
        · exact lexLeQN_trans (lexLeQN_of_not_lt (by simpa using hlt)) h2
        · exact h3 z hz

/-- Counterexample to claim C3 as stated: with a 100-simulation budget
and root children holding (move `(0,0)`, 3 visits, mean value 0) and
(move `(1,1)`, 1 visit, root-perspective mean value 1), the extraction
stage of `MCTS.search` returns `(1, 1)` — the child with the *better
root-perspective value* — although the child with the greatest visit
count is the one with move `(0, 0)`. -/
theorem c3_counterexample_value_beats_visits :
    MCTS.best_move_from_children [nodeA, nodeB] 100 = (1, 1) ∧
    nodeB.visits < nodeA.visits ∧
    nodeA.move = some (0, 0) ∧
    ((0, 0) : Pos) ≠ ((1, 1) : Pos) := by
  refine ⟨?_, by decide, by decide, by decide⟩
  have hA : MCTS.move_priority 100 nodeA = (0, 3) := by
    simp [MCTS.move_priority, nodeA, Node.visits, Node.wins]
  have hB : MCTS.move_priority 100 nodeB = (1, 1) := by
    norm_num [MCTS.move_priority, nodeB, Node.visits, Node.wins]
  have hlt : MCTS.lexLtQN (0, 3) (1, 1) = true := by
    rw [lexLtQN_iff]
    norm_num
  have hmax : argmaxElem (MCTS.move_priority 100) MCTS.lexLtQN [nodeA, nodeB] = some nodeB := by
    simp only [argmaxElem, List.foldl_cons, List.foldl_nil, hA, hB, hlt, if_true]
  simp only [MCTS.best_move_from_children, hmax]
  rfl

/-- Claim C3, amended (proved): after the budget is exhausted the
returned move belongs to a root child whose `move_priority` key — the
pair (root-perspective mean value, visit count) compared
lexicographically, with under-sampled children demoted to value `-1` and
unvisited ones to `(0, 0)` — is maximal among the children; Python's
`max` picks the first such child, not the child with the greatest visit
count. -/
theorem c3_amended_extraction_maximises_priority (children : List Node)
    (max_iterations : ℕ) (h : children ≠ []) :
    ∃ ch ∈ children,
      MCTS.best_move_from_children children max_iterations = ch.move.getD (0, 0) ∧
      ∀ c' ∈ children, lexLeQN (MCTS.move_priority max_iterations c')
        (MCTS.move_priority max_iterations ch) := by
  obtain ⟨x, xs, rfl⟩ := List.exists_cons_of_ne_nil h
  obtain ⟨r, hr, heq, hmax⟩ := argmaxElem_spec (MCTS.move_priority max_iterations) x xs
  refine ⟨r, hr, ?_, hmax⟩
  simp [MCTS.best_move_from_children, heq]

/-- Witness for the amended C3 theorem at a one-child list. -/
theorem c3_amended_witness :
    ([nodeA] : List Node) ≠ [] ∧
    ∃ ch ∈ ([nodeA] : List Node),
      MCTS.best_move_from_children [nodeA] 100 = ch.move.getD (0, 0) ∧
      ∀ c' ∈ ([nodeA] : List Node), lexLeQN (MCTS.move_priority 100 c')
        (MCTS.move_priority 100 ch) :=
  ⟨by simp, c3_amended_extraction_maximises_priority [nodeA] 100 (by simp)⟩

/-! ## Claim C9 -/

set_option maxRecDepth 16000 in
/-- Claim C9 (confirmed): the heuristic scores a candidate move with
exactly the critical weight — the strictly greatest of the five priority
constants — whenever the move wins immediately for the mover or occupies
a cell where the opponent would win immediately; and in spec §8's 7×7
scenario (player 1 on `(3,1) .. (3,4)`, player −1 to move) both `(3, 0)`
and `(3, 5)` receive that score. -/
theorem c9_heuristic_critical_tier :
    (∀ (g : Pente) (m : Pos),
      (Pente.get_winner (Pente.make_move g m) = some g.current_player ∨
        Pente.get_winner
            (Pente.make_move { g with current_player := -g.current_player } m) =
          some (-g.current_player)) →
      (MoveHeuristic.evaluate_moveT g m).1 = MoveHeuristic.Wcritical) ∧
    (MoveHeuristic.Wlow < MoveHeuristic.Wmedium ∧ MoveHeuristic.Wmedium < MoveHeuristic.Whigh ∧
      MoveHeuristic.Whigh < MoveHeuristic.Wvery_high ∧
      MoveHeuristic.Wvery_high < MoveHeuristic.Wcritical) ∧
    (MoveHeuristic.evaluate_moveT penteC9 (3, 0)).1 = MoveHeuristic.Wcritical ∧
    (MoveHeuristic.evaluate_moveT penteC9 (3, 5)).1 = MoveHeuristic.Wcritical := by
  refine ⟨?_, by decide, by decide, by decide⟩
  intro g m h
  by_cases hw : MoveHeuristic.is_winning_move g m g.current_player
  · simp [MoveHeuristic.evaluate_moveT, hw]
  · have hb : (MoveHeuristic.is_blocking_winT g m (-g.current_player)).1 = true := by
      rcases h with h | h
      · exact absurd (by simpa [MoveHeuristic.is_winning_move, Pente.clone] using h) hw
      · simp [MoveHeuristic.is_blocking_winT, MoveHeuristic.is_winning_move, Pente.clone, h]
    simp [MoveHeuristic.evaluate_moveT, hw, hb]

set_option maxRecDepth 16000 in
/-- Witness for C9: `(3, 0)` in the §8 scenario blocks player 1's
immediate five-in-a-row, so the theorem assigns it the critical score. -/
theorem c9_witness :
    Pente.get_winner
        (Pente.make_move { penteC9 with current_player := -penteC9.current_player } (3, 0)) =
      some (-penteC9.current_player) ∧
    (MoveHeuristic.evaluate_moveT penteC9 (3, 0)).1 = MoveHeuristic.Wcritical :=
  ⟨by decide, c9_heuristic_critical_tier.1 penteC9 (3, 0) (Or.inr (by decide))⟩

/-! ## Ring-walk lemmas (claims C10, C6, C4) -/

theorem cheb_eq_zero_iff {p q : Pos} : cheb p q = 0 ↔ p = q := by
  obtain ⟨a, b⟩ := p
  obtain ⟨c, d⟩ := q
  simp only [cheb, Nat.max_eq_zero_iff, Int.natAbs_eq_zero, sub_eq_zero, Prod.mk.injEq]

namespace DistanceRings

theorem mem_ringList {size : ℕ} {center q : Pos} {d : ℕ} :
    q ∈ ringList size center d ↔
      inRangeB size q.1 q.2 = true ∧ q ≠ center ∧ cheb q center = d := by
  simp only [ringList, List.mem_filter, mem_allCells, Bool.and_eq_true, beq_iff_eq,
    Bool.not_eq_eq_eq_not, Bool.not_true, beq_eq_false_iff_ne, ne_eq, and_assoc]

theorem oapsRing_seen_mem (stonesSet : List Pos) (d : ℕ) (ring : List Pos) :
    ∀ (acc : OapsAcc) (q : Pos),
      q ∈ (oapsRing stonesSet d acc ring).2 ↔
        q ∈ acc.2 ∨ (q ∈ ring ∧ q ∉ stonesSet) := by
  induction ring with
  | nil => intro acc q; simp [oapsRing]
  | cons p ps ih =>
    intro acc q
    simp only [oapsRing, List.foldl_cons]
    by_cases hc : (!(decide (p ∈ acc.2)) && !(decide (p ∈ stonesSet))) = true
    · rw [if_pos hc]
      simp only [Bool.and_eq_true, Bool.not_eq_eq_eq_not, Bool.not_true,
        decide_eq_false_iff_not] at hc
      rw [show (List.foldl _ _ ps) = oapsRing stonesSet d
        (acc.1.set (d - 1) (acc.1.getD (d - 1) [] ++ [p]), p :: acc.2) ps from rfl, ih]
      simp only [List.mem_cons]
      constructor
      · rintro ((rfl | h) | ⟨h1, h2⟩)
        · exact Or.inr ⟨Or.inl rfl, hc.2⟩
        · exact Or.inl h
        · exact Or.inr ⟨Or.inr h1, h2⟩
      · rintro (h | ⟨(rfl | h1), h2⟩)
        · exact Or.inl (Or.inr h)
        · exact Or.inl (Or.inl rfl)
        · exact Or.inr ⟨h1, h2⟩
    · rw [if_neg hc]
      simp only [Bool.and_eq_true, Bool.not_eq_eq_eq_not, Bool.not_true,
        decide_eq_false_iff_not, not_and_or, not_not] at hc
      rw [show (List.foldl _ _ ps) = oapsRing stonesSet d acc ps from rfl, ih]
      constructor
      · rintro (h | ⟨h1, h2⟩)
        · exact Or.inl h
        · exact Or.inr ⟨List.mem_cons_of_mem _ h1, h2⟩
      · rintro (h | ⟨h1, h2⟩)
        · exact Or.inl h
        · rcases List.mem_cons.mp h1 with rfl | h1
          · rcases hc with hc | hc
            · exact Or.inl hc
            · exact absurd hc h2
          · exact Or.inr ⟨h1, h2⟩

theorem flatten_set_getD_append {α : Type} (l : List (List α)) (i : ℕ) (p : α)
    (h : i < l.length) :
    (l.set i (l.getD i [] ++ [p])).flatten.Perm (p :: l.flatten) := by
  induction l generalizing i with
  | nil => simp at h
  | cons x xs ih =>
    cases i with
    | zero =>
      simp only [List.set_cons_zero, List.getD_cons_zero, List.flatten_cons, List.append_assoc,
        List.singleton_append]
      exact List.perm_middle
    | succ i =>
      simp only [List.set_cons_succ, List.getD_cons_succ, List.flatten_cons]
      have hh : i < xs.length := by simpa using h
      exact (List.Perm.append_left x (ih i hh)).trans List.perm_middle

theorem oapsRing_inv (stonesSet : List Pos) (maxd d : ℕ) (ring : List Pos) (h1d : 1 ≤ d)
    (hdm : d ≤ maxd) :
    ∀ acc : OapsAcc, acc.1.length = maxd → acc.1.flatten.Perm acc.2 → acc.2.Nodup →
      (oapsRing stonesSet d acc ring).1.length = maxd ∧
      (oapsRing stonesSet d acc ring).1.flatten.Perm (oapsRing stonesSet d acc ring).2 ∧
      (oapsRing stonesSet d acc ring).2.Nodup := by
  induction ring with
  | nil => intro acc hl hp hn; exact ⟨hl, hp, hn⟩
  | cons p ps ih =>
    intro acc hl hp hn
    simp only [oapsRing, List.foldl_cons]
    by_cases hc : (!(decide (p ∈ acc.2)) && !(decide (p ∈ stonesSet))) = true
    · rw [if_pos hc]
      simp only [Bool.and_eq_true, Bool.not_eq_eq_eq_not, Bool.not_true,
        decide_eq_false_iff_not] at hc
      rw [show (List.foldl _ _ ps) = oapsRing stonesSet d
        (acc.1.set (d - 1) (acc.1.getD (d - 1) [] ++ [p]), p :: acc.2) ps from rfl]
      refine ih _ (by simp [hl]) ?_ ?_
      · have hperm := flatten_set_getD_append acc.1 (d - 1) p (by omega)
        exact hperm.trans (List.Perm.cons p hp)
      · exact List.Nodup.cons hc.1 hn
    · rw [if_neg hc]
      rw [show (List.foldl _ _ ps) = oapsRing stonesSet d acc ps from rfl]
      exact ih acc hl hp hn

theorem oapsDists_seen_mem (size : ℕ) (stonesSet : List Pos) (st : Pos) (ds : List ℕ) :
    ∀ (acc : OapsAcc) (q : Pos),
      q ∈ (ds.foldl (fun acc d => oapsRing stonesSet d acc (ringList size st d)) acc).2 ↔
        q ∈ acc.2 ∨ (∃ d ∈ ds, q ∈ ringList size st d ∧ q ∉ stonesSet) := by
  induction ds with
  | nil => intro acc q; simp
  | cons d ds ih =>
    intro acc q
    simp only [List.foldl_cons]
    rw [ih, oapsRing_seen_mem]
    simp only [List.mem_cons]
    constructor
    · rintro ((h | ⟨h1, h2⟩) | ⟨e, he, h1, h2⟩)
      · exact Or.inl h
      · exact Or.inr ⟨d, Or.inl rfl, h1, h2⟩
      · exact Or.inr ⟨e, Or.inr he, h1, h2⟩
    · rintro (h | ⟨e, (rfl | he), h1, h2⟩)
      · exact Or.inl (Or.inl h)
      · exact Or.inl (Or.inr ⟨h1, h2⟩)
      · exact Or.inr ⟨e, he, h1, h2⟩

theorem oapsDists_inv (size maxd : ℕ) (stonesSet : List Pos) (st : Pos) (ds : List ℕ)
    (hds : ∀ d ∈ ds, 1 ≤ d ∧ d ≤ maxd) :
    ∀ acc : OapsAcc, acc.1.length = maxd → acc.1.flatten.Perm acc.2 → acc.2.Nodup →
      ((ds.foldl (fun acc d => oapsRing stonesSet d acc (ringList size st d)) acc).1.length =
        maxd ∧
      (ds.foldl (fun acc d => oapsRing stonesSet d acc (ringList size st d)) acc).1.flatten.Perm
        (ds.foldl (fun acc d => oapsRing stonesSet d acc (ringList size st d)) acc).2 ∧
      (ds.foldl (fun acc d => oapsRing stonesSet d acc (ringList size st d)) acc).2.Nodup) := by
  induction ds with
  | nil => intro acc hl hp hn; exact ⟨hl, hp, hn⟩
  | cons d ds ih =>
    intro acc hl hp hn
    simp only [List.foldl_cons]
    obtain ⟨h1, h2⟩ := hds d (List.mem_cons_self ..)
    obtain ⟨hl', hp', hn'⟩ := oapsRing_inv stonesSet maxd d (ringList size st d) h1 h2 acc hl hp hn
    exact ih (fun e he => hds e (List.mem_cons_of_mem _ he)) _ hl' hp' hn'

theorem oapsStone_seen_mem (size maxd : ℕ) (stonesSet : List Pos) (st : Pos)
    (acc : OapsAcc) (q : Pos) :
    q ∈ (oapsStone size maxd stonesSet acc st).2 ↔
      q ∈ acc.2 ∨ (inRangeB size st.1 st.2 = true ∧
        ∃ d ∈ List.range' 1 (min maxd (size - 1)), q ∈ ringList size st d ∧ q ∉ stonesSet) := by
  unfold oapsStone
  by_cases hr : inRangeB size st.1 st.2 = true
  · simp only [hr, Bool.not_true, Bool.false_eq_true, if_false]
    rw [oapsDists_seen_mem]
    simp [hr]
  · simp only [Bool.not_eq_true] at hr
    simp [hr]

theorem oapsStone_inv (size maxd : ℕ) (stonesSet : List Pos) (st : Pos)
    (acc : OapsAcc) (hl : acc.1.length = maxd) (hp : acc.1.flatten.Perm acc.2)
    (hn : acc.2.Nodup) :
    (oapsStone size maxd stonesSet acc st).1.length = maxd ∧
    (oapsStone size maxd stonesSet acc st).1.flatten.Perm
      (oapsStone size maxd stonesSet acc st).2 ∧
    (oapsStone size maxd stonesSet acc st).2.Nodup := by
  unfold oapsStone
  by_cases hr : inRangeB size st.1 st.2 = true
  · simp only [hr, Bool.not_true, Bool.false_eq_true, if_false]
    refine oapsDists_inv size maxd stonesSet st _ ?_ acc hl hp hn
    intro d hd
    rw [List.mem_range'_1] at hd
    omega
  · simp only [Bool.not_eq_true] at hr
    simp only [hr, Bool.not_false, if_true]
    exact ⟨hl, hp, hn⟩

theorem oapsStones_seen_mem (size maxd : ℕ) (stonesSet : List Pos) (sts : List Pos) :
    ∀ (acc : OapsAcc) (q : Pos),
      q ∈ (sts.foldl (oapsStone size maxd stonesSet) acc).2 ↔
        q ∈ acc.2 ∨ (∃ s ∈ sts, inRangeB size s.1 s.2 = true ∧
          ∃ d ∈ List.range' 1 (min maxd (size - 1)), q ∈ ringList size s d ∧ q ∉ stonesSet) := by
  induction sts with
  | nil => intro acc q; simp
  | cons st sts ih =>
    intro acc q
    simp only [List.foldl_cons]
    rw [ih, oapsStone_seen_mem]
    simp only [List.mem_cons]
    constructor
    · rintro ((h | ⟨hr, e, he, h1, h2⟩) | ⟨s, hs, hr, e, he, h1, h2⟩)
      · exact Or.inl h
      · exact Or.inr ⟨st, Or.inl rfl, hr, e, he, h1, h2⟩
      · exact Or.inr ⟨s, Or.inr hs, hr, e, he, h1, h2⟩
    · rintro (h | ⟨s, (rfl | hs), hr, e, he, h1, h2⟩)
      · exact Or.inl (Or.inl h)
      · exact Or.inl (Or.inr ⟨hr, e, he, h1, h2⟩)
      · exact Or.inr ⟨s, hs, hr, e, he, h1, h2⟩

theorem oapsStones_inv (size maxd : ℕ) (stonesSet : List Pos) (sts : List Pos) :
    ∀ acc : OapsAcc, acc.1.length = maxd → acc.1.flatten.Perm acc.2 → acc.2.Nodup →
      ((sts.foldl (oapsStone size maxd stonesSet) acc).1.flatten.Perm
        (sts.foldl (oapsStone size maxd stonesSet) acc).2 ∧
      (sts.foldl (oapsStone size maxd stonesSet) acc).2.Nodup) := by
  induction sts with
  | nil => intro acc hl hp hn; exact ⟨hp, hn⟩
  | cons st sts ih =>
    intro acc hl hp hn
    simp only [List.foldl_cons]
    obtain ⟨hl', hp', hn'⟩ := oapsStone_inv size maxd stonesSet st acc hl hp hn
    exact ih _ hl' hp' hn'

theorem flatten_replicate_nil {α : Type} (n : ℕ) :
    (List.replicate n ([] : List α)).flatten = [] := by
  induction n with
  | zero => rfl
  | succ n ih => simp [List.replicate_succ, ih]

/-- Position characterization of `get_ordered_positions_around_stones`:
it lists exactly the `nearStones` cells, without duplicates. -/
theorem oaps_spec (size maxd : ℕ) (stones : List Pos) (hne : stones ≠ []) :
    (get_ordered_positions_around_stones size stones maxd).Nodup ∧
    ∀ q, q ∈ get_ordered_positions_around_stones size stones maxd ↔
      nearStones size maxd stones q := by
  unfold get_ordered_positions_around_stones
  rw [if_neg (by simpa using hne)]
  have h0l : (List.replicate maxd ([] : List Pos)).length = maxd := List.length_replicate ..
  have h0p : (List.replicate maxd ([] : List Pos)).flatten.Perm [] := by
    rw [flatten_replicate_nil]
  have h0n : ([] : List Pos).Nodup := List.nodup_nil
  obtain ⟨hp, hn⟩ := oapsStones_inv size maxd stones stones
    (List.replicate maxd [], ([] : List Pos)) h0l h0p h0n
  constructor
  · exact hp.nodup_iff.mpr hn
  · intro q
    rw [hp.mem_iff, oapsStones_seen_mem]
    simp only [List.not_mem_nil, false_or]
    constructor
    · rintro ⟨s, hs, hr, d, hd, hring, hq⟩
      rw [List.mem_range'_1] at hd
      obtain ⟨hqr, hne', hcheb⟩ := mem_ringList.mp hring
      exact ⟨hq, hqr, s, hs, hr, by omega, by omega⟩
    · rintro ⟨hq, hqr, s, hs, hr, h1, h2⟩
      refine ⟨s, hs, hr, cheb q s, ?_, ?_, hq⟩
      · rw [List.mem_range'_1]
        omega
      · exact mem_ringList.mpr ⟨hqr, fun h => by simp [h, cheb_eq_zero_iff.mpr] at h1
          , rfl⟩

end DistanceRings

/-! ## Claim C10 -/

/-- Claim C10 (confirmed, implicit behaviour): `get_ordered_moves` takes
its stone set from the positions recorded in `move_history`, and the ring
walk skips members of that set; hence any cell whose stone was placed and
later captured — a cell that is empty and legal — is excluded from the
generator's output at every `max_distance`. -/
theorem c10_history_positions_excluded (size maxd : ℕ) (s : GameState) (pos : Pos)
    (h : pos ∈ s.move_history.map MoveDelta.position) :
    pos ∉ MoveGenerator.get_ordered_moves size s maxd := by
  intro hmem
  have hne : s.move_history.map MoveDelta.position ≠ [] := by
    intro hnil
    rw [hnil] at h
    exact List.not_mem_nil _ h
  unfold MoveGenerator.get_ordered_moves at hmem
  rw [if_neg (by simpa using hne)] at hmem
  have hord := (List.mem_filter.mp hmem).1
  have hns := ((DistanceRings.oaps_spec size maxd (s.move_history.map MoveDelta.position) hne).2 pos).mp hord
  exact hns.1 h

set_option maxRecDepth 8000 in
/-- Witness for C10: in `gsCapture` the pair `(5, 6)`, `(5, 7)` was
captured; `(5, 6)` is empty and legal, yet the generator never offers
it. -/
theorem c10_witness :
    ((5, 6) : Pos) ∈ gsCapture.move_history.map MoveDelta.position ∧
    BitBoard.get_stone gsCapture.board 5 6 = 0 ∧
    ((5, 6) : Pos) ∈ GameState.get_legal_moves gsCapture ∧
    ((5, 6) : Pos) ∉ MoveGenerator.get_ordered_moves 19 gsCapture 3 :=
  ⟨by decide, by decide, by decide,
    c10_history_positions_excluded 19 3 gsCapture (5, 6) (by decide)⟩

/-! ## Claim C4 -/

set_option maxRecDepth 8000 in
/-- Claim C4 (code bug in `get_ordered_positions_around_stones`): the
walk loops over stones on the outside and distances on the inside, so a
position is bucketed at its distance to the *first* stone in the list
that reaches it, not at its minimum distance to any stone.  With stones
`[(0,0), (0,4)]` and `max_distance = 3`, cell `(0,3)` (minimum distance 1,
via the second stone) is emitted *after* cell `(0,2)` (minimum distance
2), contradicting both the claimed non-decreasing minimum-distance order
and the claimed emitted-at-closest-distance property (and the method's
own docstring). -/
theorem c4_ring_walk_misorders_positions :
    ((0, 2) : Pos) ∈ DistanceRings.get_ordered_positions_around_stones 19 [(0, 0), (0, 4)] 3 ∧
    ((0, 3) : Pos) ∈ DistanceRings.get_ordered_positions_around_stones 19 [(0, 0), (0, 4)] 3 ∧
    (DistanceRings.get_ordered_positions_around_stones 19 [(0, 0), (0, 4)] 3).indexOf
        ((0, 2) : Pos) <
      (DistanceRings.get_ordered_positions_around_stones 19 [(0, 0), (0, 4)] 3).indexOf
        ((0, 3) : Pos) ∧
    DistanceRings.minChebDist [(0, 0), (0, 4)] (0, 3) = 1 ∧
    DistanceRings.minChebDist [(0, 0), (0, 4)] (0, 2) = 2 := by
  decide

/-! ## Claim C6 -/

theorem nodup_length_le {α : Type} [DecidableEq α] {l1 l2 : List α} (hn : l1.Nodup)
    (hsub : ∀ x ∈ l1, x ∈ l2) : l1.length ≤ l2.length := by
  calc l1.length = l1.toFinset.card := (List.toFinset_card_of_nodup hn).symm
    _ ≤ l2.toFinset.card := Finset.card_le_card fun x hx =>
        List.mem_toFinset.mpr (hsub x (List.mem_toFinset.mp hx))
    _ ≤ l2.length := List.toFinset_card_le l2

theorem nearStones_mono (size : ℕ) (stones : List Pos) {d1 d2 : ℕ} (h : d1 ≤ d2) (q : Pos) :
    nearStones size d1 stones q → nearStones size d2 stones q := by
  rintro ⟨h1, h2, s, hs, hr, ha, hb⟩
  refine ⟨h1, h2, s, hs, hr, ha, ?_⟩
  have := min_le_min (le_refl (size - 1)) h
  omega

theorem oaps_length_mono (size : ℕ) (stones : List Pos) {d1 d2 : ℕ} (h : d1 ≤ d2) :
    (DistanceRings.get_ordered_positions_around_stones size stones d1).length ≤
      (DistanceRings.get_ordered_positions_around_stones size stones d2).length := by
  rcases eq_or_ne stones [] with rfl | hne
  · simp [DistanceRings.get_ordered_positions_around_stones]
  · obtain ⟨hn1, hm1⟩ := DistanceRings.oaps_spec size d1 stones hne
    obtain ⟨hn2, hm2⟩ := DistanceRings.oaps_spec size d2 stones hne
    exact nodup_length_le hn1 fun x hx =>
      (hm2 x).mpr (nearStones_mono size stones h x ((hm1 x).mp hx))

theorem get_ordered_moves_length_mono (size : ℕ) (s : GameState) {d1 d2 : ℕ} (h : d1 ≤ d2) :
    (MoveGenerator.get_ordered_moves size s d1).length ≤
      (MoveGenerator.get_ordered_moves size s d2).length := by
  unfold MoveGenerator.get_ordered_moves
  rcases eq_or_ne (s.move_history.map (·.position)) [] with hnil | hne
  · rw [hnil]
    simp
  · rw [if_neg (by simpa using hne), if_neg (by simpa using hne)]
    obtain ⟨hn1, hm1⟩ := DistanceRings.oaps_spec size d1 _ hne
    obtain ⟨hn2, hm2⟩ := DistanceRings.oaps_spec size d2 _ hne
    refine nodup_length_le (hn1.filter _) fun x hx => ?_
    obtain ⟨hx1, hx2⟩ := List.mem_filter.mp hx
    exact List.mem_filter.mpr
      ⟨(hm2 x).mpr (nearStones_mono size _ h x ((hm1 x).mp hx1)), hx2⟩

theorem progressive_widening_params_mono {v1 v2 : ℕ} (h : v1 ≤ v2) :
    (MoveGenerator.progressive_widening_params v1).1 ≤
        (MoveGenerator.progressive_widening_params v2).1 ∧
      (MoveGenerator.progressive_widening_params v1).2 ≤
        (MoveGenerator.progressive_widening_params v2).2 := by
  unfold MoveGenerator.progressive_widening_params
  split_ifs <;> constructor <;> simp <;> omega

/-- Claim C6 (confirmed): for a fixed state, the progressive-widening
move list never shrinks as the visit count grows — the bucket parameters
are componentwise monotone, the ordered candidate set grows with
`max_distance`, and truncation to the target preserves the ordering of
lengths. -/
theorem c6_progressive_widening_monotone (size : ℕ) (s : GameState) (v1 v2 : ℕ)
    (h : v1 < v2) :
    (MoveGenerator.get_progressive_widening_moves size s v1).length ≤
      (MoveGenerator.get_progressive_widening_moves size s v2).length := by
  obtain ⟨hd, ht⟩ := progressive_widening_params_mono (le_of_lt h)
  unfold MoveGenerator.get_progressive_widening_moves
  have hL := get_ordered_moves_length_mono size s hd
  have key : ∀ (t : ℕ) (l : List Pos),
      (if t < l.length then l.take t else l).length = min t l.length := by
    intro t l
    split
    · simp [List.length_take]
    · simp only [min_def]
      split <;> omega
  rw [key, key]
  omega

set_option maxRecDepth 8000 in
/-- Witness for C6 on the centre-opened 19×19 archive game, visit counts
5 and 500. -/
theorem c6_witness :
    (5 : ℕ) < 500 ∧
    (MoveGenerator.get_progressive_widening_moves 19 gsAfterCenter 5).length ≤
      (MoveGenerator.get_progressive_widening_moves 19 gsAfterCenter 500).length :=
  ⟨by decide, c6_progressive_widening_monotone 19 gsAfterCenter 5 500 (by decide)⟩

/-! ## Pente board and legal-move lemmas (claim C2) -/

theorem getCell_setCell_ne {b : List (List ℤ)} {r c r' c' : ℤ} (v : ℤ)
    (hin : 0 ≤ r ∧ 0 ≤ c) (hin' : 0 ≤ r' ∧ 0 ≤ c') (hne : (r', c') ≠ (r, c)) :
    getCell (setCell b r c v) r' c' = getCell b r' c' := by
  unfold getCell setCell
  rcases eq_or_ne r'.toNat r.toNat with hr | hr
  · have hrr : r' = r := by omega
    have hc' : c' ≠ c := fun hc => hne (by rw [hrr, hc])
    have hcc : c'.toNat ≠ c.toNat := by omega
    rcases Nat.lt_or_ge r.toNat b.length with hlen | hlen
    · rw [List.getD_eq_getElem?_getD, List.getD_eq_getElem?_getD, hr,
        List.getElem?_set_self hlen, Option.getD_some,
        List.getD_eq_getElem?_getD, List.getD_eq_getElem?_getD,
        List.getElem?_set_ne (Ne.symm hcc)]
    · rw [List.set_eq_of_length_le hlen]
  · have hrow : (b.set r.toNat ((b.getD r.toNat []).set c.toNat v)).getD r'.toNat [] =
        b.getD r'.toNat [] := by
      rw [List.getD_eq_getElem?_getD, List.getElem?_set_ne (Ne.symm hr),
        ← List.getD_eq_getElem?_getD]
    rw [hrow]

theorem getCell_setCell_cases (b : List (List ℤ)) (r c v qr qc : ℤ) :
    getCell (setCell b r c v) qr qc = getCell b qr qc ∨
      getCell (setCell b r c v) qr qc = v := by
  unfold getCell setCell
  rcases eq_or_ne qr.toNat r.toNat with hr | hr
  · rcases Nat.lt_or_ge r.toNat b.length with hlen | hlen
    · have hrow : (b.set r.toNat ((b.getD r.toNat []).set c.toNat v)).getD qr.toNat [] =
          (b.getD r.toNat []).set c.toNat v := by
        rw [List.getD_eq_getElem?_getD, hr, List.getElem?_set_self hlen, Option.getD_some]
      rw [hrow]
      rcases eq_or_ne qc.toNat c.toNat with hc | hc
      · rcases Nat.lt_or_ge c.toNat (b.getD r.toNat []).length with hlen2 | hlen2
        · right
          rw [List.getD_eq_getElem?_getD, hc, List.getElem?_set_self hlen2, Option.getD_some]
        · left
          rw [List.set_eq_of_length_le hlen2, hr]
      · left
        rw [List.getD_eq_getElem?_getD ((b.getD r.toNat []).set c.toNat v),
          List.getElem?_set_ne (Ne.symm hc), ← List.getD_eq_getElem?_getD, hr]
    · left
      rw [List.set_eq_of_length_le hlen]
  · left
    have hrow : (b.set r.toNat ((b.getD r.toNat []).set c.toNat v)).getD qr.toNat [] =
        b.getD qr.toNat [] := by
      rw [List.getD_eq_getElem?_getD, List.getElem?_set_ne (Ne.symm hr),
        ← List.getD_eq_getElem?_getD]
    rw [hrow]

theorem getCell_setCell_zero {b : List (List ℤ)} (r c : ℤ) {qr qc : ℤ}
    (h : getCell b qr qc = 0) : getCell (setCell b r c 0) qr qc = 0 := by
  rcases getCell_setCell_cases b r c 0 qr qc with h' | h' <;> rw [h']
  exact h

namespace Pente

theorem checkCapturesDirP_preserves_empty {b : List (List ℤ)} (size : ℕ)
    (row col player : ℤ) (d : ℤ × ℤ) {qr qc : ℤ} (h : getCell b qr qc = 0) :
    getCell (checkCapturesDirP b size row col player d).2 qr qc = 0 := by
  simp only [checkCapturesDirP]
  split
  · split
    · split
      · exact getCell_setCell_zero _ _ (getCell_setCell_zero _ _ h)
      · exact h
    · exact h
  · exact h

theorem check_capturesP_preserves_empty {b : List (List ℤ)} (size : ℕ)
    (row col player : ℤ) {qr qc : ℤ} (h : getCell b qr qc = 0) :
    getCell (check_capturesP b size row col player).2 qr qc = 0 := by
  suffices hgen : ∀ (ds : List (ℤ × ℤ)) (acc : ℕ × List (List ℤ)), getCell acc.2 qr qc = 0 →
      getCell (ds.foldl (fun acc d =>
        let cd := checkCapturesDirP acc.2 size row col player d
        (acc.1 + cd.1, cd.2)) acc).2 qr qc = 0 by
    exact hgen directions8 (0, b) h
  intro ds
  induction ds with
  | nil => intro acc hacc; exact hacc
  | cons d ds ih =>
    intro acc hacc
    simp only [List.foldl_cons]
    exact ih _ (checkCapturesDirP_preserves_empty size row col player d hacc)

end Pente

namespace Pente

theorem mem_emptyCells {s : Pente} {p : Pos} :
    p ∈ emptyCells s ↔
      inRangeB s.board_size p.1 p.2 = true ∧ getCell s.board p.1 p.2 = 0 := by
  simp [emptyCells, List.mem_filter, mem_allCells]

theorem legal_sub (s : Pente) {m : Pos} (h : m ∈ get_legal_moves s) :
    inRangeB s.board_size m.1 m.2 = true ∧ getCell s.board m.1 m.2 = 0 := by
  simp only [get_legal_moves] at h
  by_cases hc : (s.tournament_rule && (s.move_count == 2) && (s.current_player == 1)) = true
  · rw [if_pos hc] at h
    exact mem_emptyCells.mp (List.mem_filter.mp h).1
  · rw [if_neg hc] at h
    exact mem_emptyCells.mp h

theorem make_move_meta (s : Pente) {m : Pos} (h : getCell s.board m.1 m.2 = 0) :
    (make_move s m).move_count = s.move_count + 1 ∧
    (make_move s m).current_player = -s.current_player ∧
    (make_move s m).tournament_rule = s.tournament_rule ∧
    (make_move s m).board_size = s.board_size := by
  simp only [make_move]
  rw [if_neg (by simp [h])]
  exact ⟨rfl, rfl, rfl, rfl⟩

theorem make_move_preserves_empty (s : Pente) (m : Pos) {q : Pos}
    (hne : q ≠ m) (hqin : 0 ≤ q.1 ∧ 0 ≤ q.2) (hmin : 0 ≤ m.1 ∧ 0 ≤ m.2)
    (h : getCell s.board q.1 q.2 = 0) :
    getCell (make_move s m).board q.1 q.2 = 0 := by
  simp only [make_move]
  split
  · exact h
  · refine check_capturesP_preserves_empty _ _ _ _ ?_
    rw [getCell_setCell_ne _ hmin hqin (fun hh => hne (by
      obtain ⟨hq1, hq2⟩ := Prod.mk.injEq .. ▸ hh
      exact Prod.ext hq1 hq2))]
    exact h

theorem get_legal_moves_restricted (s : Pente)
    (hc : s.tournament_rule = true ∧ s.move_count = 2 ∧ s.current_player = 1) :
    get_legal_moves s = (emptyCells s).filter fun p =>
      decide (3 ≤ max (p.1 - ((s.board_size / 2 : ℕ) : ℤ)).natAbs
        (p.2 - ((s.board_size / 2 : ℕ) : ℤ)).natAbs) := by
  simp only [get_legal_moves]
  rw [if_pos (by simp [hc.1, hc.2.1, hc.2.2])]

theorem get_legal_moves_unrestricted (s : Pente)
    (hc : ¬(s.tournament_rule = true ∧ s.move_count = 2 ∧ s.current_player = 1)) :
    get_legal_moves s = emptyCells s := by
  simp only [get_legal_moves]
  rw [if_neg]
  intro hcc
  simp only [Bool.and_eq_true, beq_iff_eq] at hcc
  exact hc ⟨hcc.1.1, hcc.1.2, hcc.2⟩

theorem valid_play_parity : ∀ (ms : List Pos) (s : Pente), valid_play s ms = true →
    (play_moves s ms).move_count = s.move_count + ms.length ∧
    (play_moves s ms).current_player =
      (if ms.length % 2 = 0 then s.current_player else -s.current_player) ∧
    (play_moves s ms).tournament_rule = s.tournament_rule := by
  intro ms
  induction ms with
  | nil => intro s _; simp [play_moves]
  | cons m ms ih =>
    intro s h
    simp only [valid_play, Bool.and_eq_true] at h
    obtain ⟨⟨-, hmem⟩, hrest⟩ := h
    have hempty := (legal_sub s (by simpa using hmem)).2
    obtain ⟨hc, hp, ht, -⟩ := make_move_meta s hempty
    have hplay : play_moves s (m :: ms) = play_moves (make_move s m) ms := rfl
    obtain ⟨ih1, ih2, ih3⟩ := ih (make_move s m) hrest
    rw [hplay]
    refine ⟨by rw [ih1, hc, List.length_cons]; omega, ?_, by rw [ih3, ht]⟩
    rw [ih2, hp]
    rcases Nat.mod_two_eq_zero_or_one ms.length with hpar | hpar
    · have hpar' : (ms.length + 1) % 2 = 1 := by omega
      simp [List.length_cons, hpar, hpar']
    · have hpar' : (ms.length + 1) % 2 = 0 := by omega
      simp [List.length_cons, hpar, hpar']

end Pente

set_option maxRecDepth 8000 in
/-- Claim C2, amended (proved for the `Pente` implementation; the archive
`GameState` behaves differently, see the counterexample): after player
1's centre move `(9, 9)` on the 19×19 tournament board, (i) the second
player's reply is unrestricted — the legal moves are exactly the empty
cells; (ii) after any legal reply, the third move (player 1's second) is
restricted: `(9, 10)` is illegal and, unless the reply occupied it,
`(9, 12)` is legal; (iii) along any legal play, every move other than the
third is unrestricted. -/
theorem c2_amended_pente_tournament_rule :
    (∀ p : Pos, p ∈ Pente.get_legal_moves pAfterCenter ↔
      (inRangeB 19 p.1 p.2 = true ∧ getCell pAfterCenter.board p.1 p.2 = 0)) ∧
    (∀ m ∈ Pente.get_legal_moves pAfterCenter,
      ((9, 10) : Pos) ∉ Pente.get_legal_moves (Pente.make_move pAfterCenter m) ∧
      (m ≠ (9, 12) →
        ((9, 12) : Pos) ∈ Pente.get_legal_moves (Pente.make_move pAfterCenter m))) ∧
    (∀ ms : List Pos, Pente.valid_play (Pente.init 19 5 true) ms = true → ms.length ≠ 2 →
      Pente.get_legal_moves (Pente.play_moves (Pente.init 19 5 true) ms) =
        Pente.emptyCells (Pente.play_moves (Pente.init 19 5 true) ms)) := by
  refine ⟨?_, ?_, ?_⟩
  · intro p
    rw [Pente.get_legal_moves_unrestricted pAfterCenter (by decide)]
    rw [Pente.mem_emptyCells]
    rw [show pAfterCenter.board_size = 19 from rfl]
  · intro m hm
    obtain ⟨hmin, hmempty⟩ := Pente.legal_sub pAfterCenter hm
    obtain ⟨hc, hp, ht, hsz⟩ := Pente.make_move_meta pAfterCenter hmempty
    have hres := Pente.get_legal_moves_restricted (Pente.make_move pAfterCenter m)
      ⟨by rw [ht]; decide, by rw [hc]; decide, by rw [hp]; decide⟩
    constructor
    · rw [hres]
      intro hmem
      have hfar := (List.mem_filter.mp hmem).2
      rw [hsz, show pAfterCenter.board_size = 19 from rfl] at hfar
      exact absurd hfar (by decide)
    · intro hne12
      rw [hres]
      refine List.mem_filter.mpr ⟨?_, ?_⟩
      · refine Pente.mem_emptyCells.mpr ⟨?_, ?_⟩
        · rw [hsz]
          decide
        · refine Pente.make_move_preserves_empty pAfterCenter m (Ne.symm hne12)
            (by decide) ?_ (by decide)
          have h19 : pAfterCenter.board_size = 19 := rfl
          rw [h19] at hmin
          simp only [inRangeB, Bool.and_eq_true, decide_eq_true_eq] at hmin
          exact ⟨hmin.1.1.1, hmin.1.2⟩
      · rw [hsz]
        decide
  · intro ms hv hlen
    obtain ⟨hc, -, ht⟩ := Pente.valid_play_parity ms (Pente.init 19 5 true) hv
    refine Pente.get_legal_moves_unrestricted _ ?_
    rintro ⟨-, h2, -⟩
    rw [hc, show (Pente.init 19 5 true).move_count = 0 from rfl] at h2
    exact hlen (by omega)

set_option maxRecDepth 8000 in
/-- Witness for the amended C2 at the reply `(0, 0)` and the
single-move play `[(9, 9)]`. -/
theorem c2_amended_witness :
    ((0, 0) : Pos) ∈ Pente.get_legal_moves pAfterCenter ∧
    ((9, 10) : Pos) ∉ Pente.get_legal_moves (Pente.make_move pAfterCenter (0, 0)) ∧
    ((9, 12) : Pos) ∈ Pente.get_legal_moves (Pente.make_move pAfterCenter (0, 0)) ∧
    Pente.valid_play (Pente.init 19 5 true) [(9, 9)] = true ∧
    Pente.get_legal_moves (Pente.play_moves (Pente.init 19 5 true) [(9, 9)]) =
      Pente.emptyCells (Pente.play_moves (Pente.init 19 5 true) [(9, 9)]) := by
  have h00 : ((0, 0) : Pos) ∈ Pente.get_legal_moves pAfterCenter := by decide
  have hvp : Pente.valid_play (Pente.init 19 5 true) [(9, 9)] = true := by decide
  obtain ⟨hA, hB⟩ := c2_amended_pente_tournament_rule.2.1 (0, 0) h00
  exact ⟨h00, hA, hB (by decide), hvp,
    c2_amended_pente_tournament_rule.2.2 [(9, 9)] hvp (by decide)⟩

/-! ## Claim C7: five-in-a-row scan lemmas -/

theorem cellArith (r dd : ℤ) (k : ℕ) :
    r + ((k + 1 : ℕ) : ℤ) * dd = (r + dd) + (k : ℤ) * dd := by push_cast; ring

namespace GameState

theorem countDir_sound (b : BitBoard) (size : ℕ) (player : ℤ) (d : ℤ × ℤ) :
    ∀ (fuel : ℕ) (r c : ℤ) (k : ℕ), k < countDir b size player d fuel r c →
      inRangeB size (r + k * d.1) (c + k * d.2) = true ∧
        BitBoard.get_stone b (r + k * d.1) (c + k * d.2) = player := by
  intro fuel
  induction fuel with
  | zero => intro r c k h; simp [countDir] at h
  | succ fuel ih =>
    intro r c k h
    rw [countDir] at h
    by_cases hc : (inRangeB size r c && (BitBoard.get_stone b r c == player)) = true
    · rw [if_pos hc] at h
      simp only [Bool.and_eq_true, beq_iff_eq] at hc
      cases k with
      | zero => simpa using ⟨hc.1, hc.2⟩
      | succ k =>
        have hk : k < countDir b size player d fuel (r + d.1) (c + d.2) := by omega
        have hres := ih (r + d.1) (c + d.2) k hk
        rw [cellArith r d.1 k, cellArith c d.2 k]
        exact hres
    · rw [if_neg hc] at h
      omega

theorem countDir_complete (b : BitBoard) (size : ℕ) (player : ℤ) (d : ℤ × ℤ) :
    ∀ (n fuel : ℕ) (r c : ℤ), n ≤ fuel →
      (∀ k : ℕ, k < n → inRangeB size (r + k * d.1) (c + k * d.2) = true ∧
        BitBoard.get_stone b (r + k * d.1) (c + k * d.2) = player) →
      n ≤ countDir b size player d fuel r c := by
  intro n
  induction n with
  | zero => intro fuel r c _ _; omega
  | succ n ih =>
    intro fuel r c hf hall
    cases fuel with
    | zero => omega
    | succ fuel =>
      have h0 := hall 0 (by omega)
      simp only [Nat.cast_zero, zero_mul, add_zero] at h0
      rw [countDir, if_pos (by simp [h0.1, h0.2])]
      have hrec : n ≤ countDir b size player d fuel (r + d.1) (c + d.2) := by
        refine ih fuel _ _ (by omega) ?_
        intro k hk
        have hres := hall (k + 1) (by omega)
        rw [cellArith r d.1 k, cellArith c d.2 k] at hres
        exact hres
      omega

theorem count_line_five (s : GameState) {sr sc : ℤ} {d : ℤ × ℤ} (hd : d ∈ directions4)
    {p : ℤ} (hin : inRangeB s.board_size sr sc = true)
    (hst : BitBoard.get_stone s.board sr sc = p)
    (h5 : 5 ≤ count_line s.board s.board_size sr sc d p) : hasFiveB s p = true := by
  have hf := countDir_sound s.board s.board_size p d s.board_size (sr + d.1) (sc + d.2)
  have hb := countDir_sound s.board s.board_size p (-d.1, -d.2) s.board_size
    (sr - d.1) (sc - d.2)
  set f := countDir s.board s.board_size p d s.board_size (sr + d.1) (sc + d.2) with hfdef
  set bk := countDir s.board s.board_size p (-d.1, -d.2) s.board_size
    (sr - d.1) (sc - d.2) with hbdef
  have hcount : 5 ≤ 1 + f + bk := h5
  have hcell : ∀ j : ℤ, -(bk : ℤ) ≤ j → j ≤ (f : ℤ) →
      inRangeB s.board_size (sr + j * d.1) (sc + j * d.2) = true ∧
        BitBoard.get_stone s.board (sr + j * d.1) (sc + j * d.2) = p := by
    intro j hj1 hj2
    rcases lt_trichotomy j 0 with hj | hj | hj
    · have hk : ((-j).toNat - 1) < bk := by omega
      have hres := hb ((-j).toNat - 1) hk
      have e1 : (sr - d.1) + (((-j).toNat - 1 : ℕ) : ℤ) * (-d.1, -d.2).1 = sr + j * d.1 := by
        simp only []
        have : (((-j).toNat - 1 : ℕ) : ℤ) = -j - 1 := by omega
        rw [this]; ring
      have e2 : (sc - d.2) + (((-j).toNat - 1 : ℕ) : ℤ) * (-d.1, -d.2).2 = sc + j * d.2 := by
        simp only []
        have : (((-j).toNat - 1 : ℕ) : ℤ) = -j - 1 := by omega
        rw [this]; ring
      rw [e1, e2] at hres
      exact hres
    · subst hj
      simpa using ⟨hin, hst⟩
    · have hk : (j.toNat - 1) < f := by omega
      have hres := hf (j.toNat - 1) hk
      have e1 : (sr + d.1) + ((j.toNat - 1 : ℕ) : ℤ) * d.1 = sr + j * d.1 := by
        have : ((j.toNat - 1 : ℕ) : ℤ) = j - 1 := by omega
        rw [this]; ring
      have e2 : (sc + d.2) + ((j.toNat - 1 : ℕ) : ℤ) * d.2 = sc + j * d.2 := by
        have : ((j.toNat - 1 : ℕ) : ℤ) = j - 1 := by omega
        rw [this]; ring
      rw [e1, e2] at hres
      exact hres
  have hm : ∀ k : ℕ, k < 5 → -(bk : ℤ) ≤ (k : ℤ) - (min bk 4 : ℕ) ∧
      ((k : ℤ) - (min bk 4 : ℕ)) ≤ (f : ℤ) := by
    intro k hk
    constructor <;> omega
  rw [hasFiveB, List.any_eq_true]
  have hstart := hcell (0 - (min bk 4 : ℕ)) (by omega) (by omega)
  refine ⟨(sr - (min bk 4 : ℕ) * d.1, sc - (min bk 4 : ℕ) * d.2), ?_, ?_⟩
  · rw [mem_allCells]
    have e1 : sr + (0 - ((min bk 4 : ℕ) : ℤ)) * d.1 = sr - (min bk 4 : ℕ) * d.1 := by ring
    have e2 : sc + (0 - ((min bk 4 : ℕ) : ℤ)) * d.2 = sc - (min bk 4 : ℕ) * d.2 := by ring
    rw [e1, e2] at hstart
    exact hstart.1
  · rw [List.any_eq_true]
    refine ⟨d, hd, ?_⟩
    rw [List.all_eq_true]
    intro k hk
    rw [List.mem_range] at hk
    have hres := hcell ((k : ℤ) - (min bk 4 : ℕ)) (hm k hk).1 (hm k hk).2
    have e1 : sr + ((k : ℤ) - ((min bk 4 : ℕ) : ℤ)) * d.1 =
        (sr - (min bk 4 : ℕ) * d.1) + (k : ℤ) * d.1 := by ring
    have e2 : sc + ((k : ℤ) - ((min bk 4 : ℕ) : ℤ)) * d.2 =
        (sc - (min bk 4 : ℕ) * d.2) + (k : ℤ) * d.2 := by ring
    rw [e1, e2] at hres
    simp only [Bool.and_eq_true, beq_iff_eq]
    exact ⟨hres.1, hres.2⟩

end GameState

theorem inRangeB_mono {size : ℕ} (h : size ≤ 19) {r c : ℤ}
    (hrc : inRangeB size r c = true) : inRangeB 19 r c = true := by
  simp only [inRangeB, Bool.and_eq_true, decide_eq_true_eq] at *
  omega

namespace GameState

theorem scan_sound (s : GameState) {q : ℤ} (h : check_five_in_row s = some q) :
    (q = 1 ∨ q = -1) ∧ hasFiveB s q = true := by
  rw [check_five_in_row] at h
  obtain ⟨st, hstmem, hinner⟩ := List.exists_of_findSome?_eq_some h
  have hinner' : (if BitBoard.get_stone s.board st.1 st.2 ≠ 0 then
      directions4.findSome? (fun d =>
        if 5 ≤ count_line s.board s.board_size st.1 st.2 d
            (BitBoard.get_stone s.board st.1 st.2) then
          some (BitBoard.get_stone s.board st.1 st.2)
        else none)
    else none) = some q := hinner
  by_cases h0 : BitBoard.get_stone s.board st.1 st.2 ≠ 0
  · rw [if_pos h0] at hinner'
    obtain ⟨d, hd, hif⟩ := List.exists_of_findSome?_eq_some hinner'
    by_cases h5 : 5 ≤ count_line s.board s.board_size st.1 st.2 d
        (BitBoard.get_stone s.board st.1 st.2)
    · rw [if_pos h5] at hif
      have hq : BitBoard.get_stone s.board st.1 st.2 = q := Option.some.inj hif
      have hin : inRangeB s.board_size st.1 st.2 = true := mem_allCells.mp hstmem
      rw [hq] at h5 h0
      refine ⟨?_, count_line_five s hd hin hq h5⟩
      rcases BitBoard.get_stone_cases s.board st.1 st.2 with hc | hc | hc
      · rw [hq] at hc; exact absurd hc h0
      · rw [hq] at hc; exact Or.inl hc
      · rw [hq] at hc; exact Or.inr hc
    · rw [if_neg h5] at hif
      exact absurd hif (by simp)
  · rw [if_neg h0] at hinner'
    exact absurd hinner' (by simp)

theorem scan_complete (s : GameState) {p : ℤ} (hp : p = 1 ∨ p = -1)
    (h : hasFiveB s p = true) : check_five_in_row s ≠ none := by
  rw [hasFiveB, List.any_eq_true] at h
  obtain ⟨st, hstmem, h2⟩ := h
  rw [List.any_eq_true] at h2
  obtain ⟨d, hd, h3⟩ := h2
  rw [List.all_eq_true] at h3
  have hcell : ∀ k : ℕ, k < 5 →
      inRangeB s.board_size (st.1 + k * d.1) (st.2 + k * d.2) = true ∧
        BitBoard.get_stone s.board (st.1 + k * d.1) (st.2 + k * d.2) = p := by
    intro k hk
    have := h3 k (List.mem_range.mpr hk)
    simpa [Bool.and_eq_true, beq_iff_eq] using this
  have hsz : 5 ≤ s.board_size := by
    have h0 := hcell 0 (by omega)
    have h4 := hcell 4 (by omega)
    simp only [inRangeB, Bool.and_eq_true, decide_eq_true_eq] at h0 h4
    simp only [directions4, List.mem_cons, List.not_mem_nil, or_false] at hd
    rcases hd with rfl | rfl | rfl | rfl <;> simp at h0 h4 <;> omega
  have hstone : BitBoard.get_stone s.board st.1 st.2 = p := by
    have := (hcell 0 (by omega)).2
    simpa using this
  have hfwd : 4 ≤ countDir s.board s.board_size p d s.board_size
      (st.1 + d.1) (st.2 + d.2) := by
    refine countDir_complete s.board s.board_size p d 4 s.board_size _ _ (by omega) ?_
    intro k hk
    have hres := hcell (k + 1) (by omega)
    rw [cellArith st.1 d.1 k, cellArith st.2 d.2 k] at hres
    exact hres
  have h5count : 5 ≤ count_line s.board s.board_size st.1 st.2 d p := by
    rw [count_line]; omega
  intro hnone
  rw [check_five_in_row, List.findSome?_eq_none_iff] at hnone
  have hst := hnone st hstmem
  have hst' : (if BitBoard.get_stone s.board st.1 st.2 ≠ 0 then
      directions4.findSome? (fun d' =>
        if 5 ≤ count_line s.board s.board_size st.1 st.2 d'
            (BitBoard.get_stone s.board st.1 st.2) then
          some (BitBoard.get_stone s.board st.1 st.2)
        else none)
    else none) = none := hst
  rw [hstone] at hst'
  have hp0 : p ≠ 0 := by rcases hp with rfl | rfl <;> decide
  rw [if_pos hp0, List.findSome?_eq_none_iff] at hst'
  have := hst' d hd
  rw [if_pos h5count] at this
  exact absurd this (by simp)

theorem apply_move_config (s : GameState) (p : Pos) :
    (apply_move s p).board_size = s.board_size ∧
      (apply_move s p).captures_to_win = s.captures_to_win ∧
      (apply_move s p).tournament_rule = s.tournament_rule := by
  simp only [apply_move, make_move]
  split
  · exact ⟨rfl, rfl, rfl⟩
  · repeat' split
    all_goals exact ⟨rfl, rfl, rfl⟩

theorem apply_move_board (s : GameState) (pos : Pos)
    (h : BitBoard.is_empty s.board pos.1 pos.2 = true) :
    (apply_move s pos).board =
      (check_captures (BitBoard.set_stone s.board pos.1 pos.2 s.current_player)
        s.board_size pos.1 pos.2 s.current_player).2 := by
  simp only [apply_move, make_move, h, Bool.not_true]
  rw [if_neg (by simp)]

theorem apply_move_cp (s : GameState) (pos : Pos)
    (h : BitBoard.is_empty s.board pos.1 pos.2 = true) :
    (apply_move s pos).current_player = -s.current_player := by
  simp only [apply_move, make_move, h, Bool.not_true]
  rw [if_neg (by simp)]

theorem apply_move_captures1_of_ne (s : GameState) (pos : Pos)
    (hcp : s.current_player ≠ 1) :
    (apply_move s pos).captures1 = s.captures1 := by
  simp only [apply_move, make_move]
  split
  · rfl
  · repeat' split
    all_goals first
      | rfl
      | exact absurd ‹s.current_player = 1› hcp

theorem apply_move_capturesM1_of_eq (s : GameState) (pos : Pos)
    (hcp : s.current_player = 1) :
    (apply_move s pos).capturesM1 = s.capturesM1 := by
  simp only [apply_move, make_move]
  split
  · rfl
  · repeat' split
    all_goals first
      | rfl
      | exact absurd hcp ‹¬s.current_player = 1›

theorem make_move_captures_other (s : GameState) (pos : Pos)
    (hcp : s.current_player = 1 ∨ s.current_player = -1) {q : ℤ}
    (hq : q = 1 ∨ q = -1) (hne : q ≠ s.current_player) :
    captures (apply_move s pos) q = captures s q := by
  rcases hq with rfl | rfl
  · have hcp' : s.current_player ≠ 1 := fun hx => hne hx.symm
    rw [captures, captures, if_pos rfl, if_pos rfl,
      apply_move_captures1_of_ne s pos hcp']
  · have hcp' : s.current_player = 1 := by
      rcases hcp with hcp | hcp
      · exact hcp
      · exact absurd hcp.symm hne
    rw [captures, captures, if_neg (by norm_num), if_neg (by norm_num),
      apply_move_capturesM1_of_eq s pos hcp']

theorem ccDir_WF {b : BitBoard} (hb : BitBoard.WF b) (size : ℕ) (row col player : ℤ)
    (d : ℤ × ℤ) : BitBoard.WF (checkCapturesDir b size row col player d).2 := by
  simp only [checkCapturesDir]
  repeat' split
  all_goals first
    | exact hb
    | exact BitBoard.remove_stone_WF (BitBoard.remove_stone_WF hb _ _) _ _

theorem ccDir_mono {b : BitBoard} (hb : BitBoard.WF b) {size : ℕ} (hsize : size ≤ 19)
    (row col player : ℤ) (d : ℤ × ℤ) {r c v : ℤ} (hrc : inRangeB 19 r c = true)
    (hv : v ≠ 0) :
    BitBoard.get_stone (checkCapturesDir b size row col player d).2 r c = v →
    BitBoard.get_stone b r c = v := by
  simp only [checkCapturesDir]
  repeat' split
  all_goals try exact fun h => h
  rename_i hA hB hC
  simp only [Bool.and_eq_true, beq_iff_eq] at hA hB
  intro h
  have h1in : inRangeB 19 (row + d.1) (col + d.2) = true := inRangeB_mono hsize hA.1
  have h2in : inRangeB 19 (row + d.1 + d.1) (col + d.2 + d.2) = true :=
    inRangeB_mono hsize hB.1
  have hwf1 : BitBoard.WF (BitBoard.remove_stone b (row + d.1) (col + d.2)) :=
    BitBoard.remove_stone_WF hb _ _
  by_cases he2 : ((r, c) : Pos) = (row + d.1 + d.1, col + d.2 + d.2)
  · injection he2 with hr hc
    rw [hr, hc] at h
    rw [BitBoard.get_stone_remove_stone_self hwf1 h2in] at h
    exact absurd h.symm hv
  · rw [BitBoard.get_stone_remove_stone_ne hwf1 h2in hrc he2] at h
    by_cases he1 : ((r, c) : Pos) = (row + d.1, col + d.2)
    · injection he1 with hr hc
      rw [hr, hc] at h
      rw [BitBoard.get_stone_remove_stone_self hb h1in] at h
      exact absurd h.symm hv
    · rw [BitBoard.get_stone_remove_stone_ne hb h1in hrc he1] at h
      exact h

theorem ccFold_WF (size : ℕ) (row col player : ℤ) :
    ∀ (ds : List (ℤ × ℤ)) (acc : List Pos × BitBoard), BitBoard.WF acc.2 →
      BitBoard.WF ((ds.foldl (fun acc d =>
        let cd := checkCapturesDir acc.2 size row col player d
        (acc.1 ++ cd.1, cd.2)) acc)).2
  | [], _, h => h
  | d :: ds, acc, h => by
    rw [List.foldl_cons]
    exact ccFold_WF size row col player ds _ (ccDir_WF h size row col player d)

theorem ccFold_mono {size : ℕ} (hsize : size ≤ 19) (row col player : ℤ) {r c v : ℤ}
    (hrc : inRangeB 19 r c = true) (hv : v ≠ 0) :
    ∀ (ds : List (ℤ × ℤ)) (acc : List Pos × BitBoard), BitBoard.WF acc.2 →
      BitBoard.get_stone ((ds.foldl (fun acc d =>
        let cd := checkCapturesDir acc.2 size row col player d
        (acc.1 ++ cd.1, cd.2)) acc)).2 r c = v →
      BitBoard.get_stone acc.2 r c = v
  | [], _, _, h => h
  | d :: ds, acc, hwf, h => by
    rw [List.foldl_cons] at h
    have h2 := ccFold_mono hsize row col player hrc hv ds
      (acc.1 ++ (checkCapturesDir acc.2 size row col player d).1,
        (checkCapturesDir acc.2 size row col player d).2)
      (ccDir_WF hwf size row col player d) h
    exact ccDir_mono hwf hsize row col player d hrc hv h2

theorem check_captures_WF {b : BitBoard} (hb : BitBoard.WF b) (size : ℕ)
    (row col player : ℤ) : BitBoard.WF (check_captures b size row col player).2 := by
  rw [check_captures]
  exact ccFold_WF size row col player directions8 ([], b) hb

theorem check_captures_mono {b : BitBoard} (hb : BitBoard.WF b) {size : ℕ}
    (hsize : size ≤ 19) (row col player : ℤ) {r c v : ℤ} (hrc : inRangeB 19 r c = true)
    (hv : v ≠ 0)
    (h : BitBoard.get_stone (check_captures b size row col player).2 r c = v) :
    BitBoard.get_stone b r c = v := by
  rw [check_captures] at h
  exact ccFold_mono hsize row col player hrc hv directions8 ([], b) hb h

theorem apply_move_occupied (s : GameState) (pos : Pos)
    (h : BitBoard.is_empty s.board pos.1 pos.2 = false) : apply_move s pos = s := by
  simp [apply_move, make_move, h]

theorem apply_move_WF (s : GameState) (pos : Pos) (hb : BitBoard.WF s.board) :
    BitBoard.WF (apply_move s pos).board := by
  by_cases hemp : BitBoard.is_empty s.board pos.1 pos.2 = true
  · rw [apply_move_board s pos hemp]
    exact check_captures_WF (BitBoard.set_stone_WF hb _ _ _) _ _ _ _
  · rw [apply_move_occupied s pos
      (by revert hemp; cases BitBoard.is_empty s.board pos.1 pos.2 <;> simp)]
    exact hb

theorem make_move_other_stone (s : GameState) (pos : Pos)
    (hb : BitBoard.WF s.board) (hsize : s.board_size ≤ 19)
    (hcp : s.current_player = 1 ∨ s.current_player = -1)
    (hpos : inRangeB s.board_size pos.1 pos.2 = true)
    (hemp : BitBoard.is_empty s.board pos.1 pos.2 = true)
    {r c v : ℤ} (hrc : inRangeB 19 r c = true) (hv0 : v ≠ 0)
    (hvcp : v ≠ s.current_player) :
    BitBoard.get_stone (apply_move s pos).board r c = v →
    BitBoard.get_stone s.board r c = v := by
  rw [apply_move_board s pos hemp]
  intro h
  have hb1 : BitBoard.WF (BitBoard.set_stone s.board pos.1 pos.2 s.current_player) :=
    BitBoard.set_stone_WF hb _ _ _
  have h1 : BitBoard.get_stone
      (BitBoard.set_stone s.board pos.1 pos.2 s.current_player) r c = v :=
    check_captures_mono hb1 hsize _ _ _ hrc hv0 h
  by_cases he : ((r, c) : Pos) = (pos.1, pos.2)
  · exfalso
    injection he with hr hc
    rw [hr, hc] at h1
    rw [BitBoard.get_stone_set_stone_self hb (inRangeB_mono hsize hpos) _] at h1
    rcases hcp with hcp | hcp
    · rw [if_pos hcp] at h1
      exact hvcp (by rw [← h1, hcp])
    · rw [if_neg (by rw [hcp]; norm_num)] at h1
      exact hvcp (by rw [← h1, hcp])
  · rw [BitBoard.get_stone_set_stone_ne hb (inRangeB_mono hsize hpos) hrc he _] at h1
    exact h1

theorem hasFiveB_apply_move_other (s : GameState) (pos : Pos)
    (hb : BitBoard.WF s.board) (hsize : s.board_size ≤ 19)
    (hcp : s.current_player = 1 ∨ s.current_player = -1)
    (hpos : inRangeB s.board_size pos.1 pos.2 = true)
    (hemp : BitBoard.is_empty s.board pos.1 pos.2 = true)
    {q : ℤ} (hq : q = 1 ∨ q = -1) (hqcp : q ≠ s.current_player) :
    hasFiveB (apply_move s pos) q = true → hasFiveB s q = true := by
  intro h
  rw [hasFiveB, List.any_eq_true] at h ⊢
  obtain ⟨st, hstmem, h2⟩ := h
  rw [(apply_move_config s pos).1] at hstmem
  refine ⟨st, hstmem, ?_⟩
  rw [List.any_eq_true] at h2 ⊢
  obtain ⟨d, hd, h3⟩ := h2
  refine ⟨d, hd, ?_⟩
  rw [List.all_eq_true] at h3 ⊢
  intro k hk
  have hcellk := h3 k hk
  simp only [Bool.and_eq_true, beq_iff_eq] at hcellk ⊢
  rw [(apply_move_config s pos).1] at hcellk
  have hq0 : q ≠ 0 := by rcases hq with rfl | rfl <;> decide
  exact ⟨hcellk.1, make_move_other_stone s pos hb hsize hcp hpos hemp
    (inRangeB_mono hsize hcellk.1) hq0 hqcp hcellk.2⟩

theorem winner_none (s : GameState) (h : get_winner s = none) :
    s.captures1 < s.captures_to_win ∧ s.capturesM1 < s.captures_to_win ∧
      check_five_in_row s = none := by
  rw [get_winner] at h
  by_cases h1 : s.captures_to_win ≤ s.captures1
  · rw [if_pos h1] at h
    exact absurd h (by simp)
  · rw [if_neg h1] at h
    by_cases h2 : s.captures_to_win ≤ s.capturesM1
    · rw [if_pos h2] at h
      exact absurd h (by simp)
    · rw [if_neg h2] at h
      exact ⟨not_le.mp h1, not_le.mp h2, h⟩

theorem mem_legal (s : GameState) {m : Pos} (h : m ∈ get_legal_moves s) :
    inRangeB s.board_size m.1 m.2 = true ∧
      BitBoard.is_empty s.board m.1 m.2 = true := by
  simp only [get_legal_moves] at h
  split at h
  · rw [List.mem_filter] at h
    have hp := h.2
    simp only [Bool.and_eq_true] at hp
    exact ⟨mem_allCells.mp h.1, hp.1⟩
  · rw [List.mem_filter] at h
    exact ⟨mem_allCells.mp h.1, h.2⟩

end GameState

theorem c7Inv_init (size : ℕ) (thr : ℤ) (tr : Bool) (hthr : 1 ≤ thr) :
    c7Inv thr (GameState.init size thr tr) := by
  refine ⟨BitBoard.empty_WF, Or.inl rfl, 1, Or.inl rfl, ?_⟩
  intro q hq hne
  have hq' : q = -1 := by
    rcases hq with rfl | rfl
    · exact absurd rfl hne
    · rfl
  subst hq'
  constructor
  · have h0 : GameState.captures (GameState.init size thr tr) (-1) = 0 := by
      rw [GameState.captures, if_neg (by norm_num)]
      rfl
    rw [h0]
    omega
  · rw [GameState.hasFiveB, Bool.eq_false_iff]
    intro hcon
    rw [List.any_eq_true] at hcon
    obtain ⟨st, _, h2⟩ := hcon
    rw [List.any_eq_true] at h2
    obtain ⟨d, _, h3⟩ := h2
    rw [List.all_eq_true] at h3
    have h0 := h3 0 (by decide)
    simp only [Bool.and_eq_true, beq_iff_eq] at h0
    have h0' := h0.2
    rw [show (GameState.init size thr tr).board = BitBoard.empty from rfl,
      BitBoard.get_stone_empty_bb] at h0'
    exact absurd h0' (by decide)

theorem c7Inv_step (thr : ℤ) (s : GameState) (m : Pos)
    (hsize : s.board_size ≤ 19) (hthr : s.captures_to_win = thr)
    (hinv : c7Inv thr s) (hterm : GameState.get_winner s = none)
    (hm : m ∈ GameState.get_legal_moves s) : c7Inv thr (GameState.apply_move s m) := by
  obtain ⟨hwf, hcp, -⟩ := hinv
  obtain ⟨hmin, hmemp⟩ := GameState.mem_legal s hm
  refine ⟨GameState.apply_move_WF s m hwf, ?_, s.current_player, hcp, ?_⟩
  · rw [GameState.apply_move_cp s m hmemp]
    rcases hcp with h | h <;> rw [h] <;> decide
  · intro q hq hne
    have hn := GameState.winner_none s hterm
    have hql : GameState.captures s q < thr := by
      rw [GameState.captures]
      split
      · rw [← hthr]; exact hn.1
      · rw [← hthr]; exact hn.2.1
    have hq5 : GameState.hasFiveB s q = false := by
      rw [Bool.eq_false_iff]
      intro hcon
      exact (GameState.scan_complete s hq hcon) hn.2.2
    constructor
    · rw [GameState.make_move_captures_other s m hcp hq hne]
      exact hql
    · rw [Bool.eq_false_iff]
      intro hcon
      have h5 := GameState.hasFiveB_apply_move_other s m hwf hsize hcp hmin hmemp hq hne hcon
      rw [hq5] at h5
      exact absurd h5 (by decide)

theorem apply_move_winner_of_terminal (s : GameState) (hterm : GameState.is_terminalB s = false) :
    GameState.get_winner s = none := by
  cases hwo : GameState.get_winner s with
  | none => rfl
  | some x =>
    rw [GameState.is_terminalB, hwo] at hterm
    simp at hterm

theorem c7Inv_play (thr : ℤ) :
    ∀ (ms : List Pos) (s : GameState), s.board_size ≤ 19 → s.captures_to_win = thr →
      c7Inv thr s → GameState.valid_play s ms = true →
      c7Inv thr (GameState.play_moves s ms)
  | [], _, _, _, hinv, _ => hinv
  | m :: ms, s, hsize, hthr, hinv, hv => by
    obtain ⟨⟨hterm, hmem⟩, hrest⟩ : ((!GameState.is_terminalB s) = true ∧
        m ∈ GameState.get_legal_moves s) ∧
        GameState.valid_play (GameState.apply_move s m) ms = true := by
      simpa only [GameState.valid_play, Bool.and_eq_true, decide_eq_true_eq] using hv
    have hterm' : GameState.is_terminalB s = false := by
      revert hterm
      cases GameState.is_terminalB s <;> simp
    have hw := apply_move_winner_of_terminal s hterm'
    have hcfg := GameState.apply_move_config s m
    rw [GameState.play_moves, List.foldl_cons]
    exact c7Inv_play thr ms (GameState.apply_move s m) (by rw [hcfg.1]; exact hsize)
      (by rw [hcfg.2.1]; exact hthr)
      (c7Inv_step thr s m hsize hthr hinv hw hmem) hrest

theorem play_moves_config : ∀ (ms : List Pos) (s : GameState),
    (GameState.play_moves s ms).board_size = s.board_size ∧
      (GameState.play_moves s ms).captures_to_win = s.captures_to_win
  | [], _ => ⟨rfl, rfl⟩
  | m :: ms, s => by
    rw [GameState.play_moves, List.foldl_cons]
    have h1 := play_moves_config ms (GameState.apply_move s m)
    have h2 := GameState.apply_move_config s m
    rw [GameState.play_moves] at h1
    exact ⟨h1.1.trans h2.1, h1.2.trans h2.2.1⟩

theorem c7_final (s : GameState) (thr : ℤ) (hthr : s.captures_to_win = thr)
    (hinv : c7Inv thr s) {p : ℤ} (hp : p = 1 ∨ p = -1) :
    GameState.get_winner s = some p ↔
      (thr ≤ GameState.captures s p ∨ GameState.hasFiveB s p = true) := by
  obtain ⟨-, -, mm, hmm, hother⟩ := hinv
  constructor
  · intro hwin
    rw [GameState.get_winner] at hwin
    by_cases h1 : s.captures_to_win ≤ s.captures1
    · rw [if_pos h1] at hwin
      have hp1 := Option.some.inj hwin
      left
      rw [← hp1, GameState.captures, if_pos rfl, ← hthr]
      exact h1
    · rw [if_neg h1] at hwin
      by_cases h2 : s.captures_to_win ≤ s.capturesM1
      · rw [if_pos h2] at hwin
        have hp1 := Option.some.inj hwin
        left
        rw [← hp1, GameState.captures, if_neg (by norm_num), ← hthr]
        exact h2
      · rw [if_neg h2] at hwin
        right
        exact (GameState.scan_sound s hwin).2
  · intro h
    rcases hp with rfl | rfl
    · rw [GameState.get_winner]
      by_cases h1 : s.captures_to_win ≤ s.captures1
      · rw [if_pos h1]
      · rw [if_neg h1]
        have hfive : GameState.hasFiveB s 1 = true := by
          rcases h with h | h
          · exfalso
            rw [GameState.captures, if_pos rfl] at h
            rw [hthr] at h1
            exact h1 h
          · exact h
        have hm1 : mm = 1 := by
          rcases hmm with h' | h'
          · exact h'
          · exfalso
            have hoth := hother 1 (Or.inl rfl) (by rw [h']; decide)
            rw [hoth.2] at hfive
            exact absurd hfive (by decide)
        have hcm : s.capturesM1 < thr := by
          have hoth := hother (-1) (Or.inr rfl) (by rw [hm1]; decide)
          have h2 := hoth.1
          rw [GameState.captures, if_neg (by norm_num)] at h2
          exact h2
        rw [if_neg (by rw [hthr]; omega)]
        cases hscan : GameState.check_five_in_row s with
        | none => exact absurd hscan (GameState.scan_complete s (Or.inl rfl) hfive)
        | some q =>
          have hs := GameState.scan_sound s hscan
          rcases hs.1 with h' | h'
          · rw [h']
          · exfalso
            have hoth := hother (-1) (Or.inr rfl) (by rw [hm1]; decide)
            have h5 := hs.2
            rw [h', hoth.2] at h5
            exact absurd h5 (by decide)
    · rw [GameState.get_winner]
      have hfiveOr : s.captures_to_win ≤ s.capturesM1 ∨
          GameState.hasFiveB s (-1) = true := by
        rcases h with h | h
        · left
          rw [GameState.captures, if_neg (by norm_num)] at h
          rw [hthr]
          exact h
        · right
          exact h
      have hm1 : mm = -1 := by
        rcases hmm with h' | h'
        · exfalso
          have hoth := hother (-1) (Or.inr rfl) (by rw [h']; decide)
          rcases hfiveOr with hx | hx
          · have h2 := hoth.1
            rw [GameState.captures, if_neg (by norm_num)] at h2
            rw [hthr] at hx
            omega
          · rw [hoth.2] at hx
            exact absurd hx (by decide)
        · exact h'
      have hc1 : s.captures1 < thr := by
        have hoth := hother 1 (Or.inl rfl) (by rw [hm1]; decide)
        have h2 := hoth.1
        rw [GameState.captures, if_pos rfl] at h2
        exact h2
      rw [if_neg (by rw [hthr]; omega)]
      by_cases h2 : s.captures_to_win ≤ s.capturesM1
      · rw [if_pos h2]
      · rw [if_neg h2]
        have hfive : GameState.hasFiveB s (-1) = true := by
          rcases hfiveOr with hx | hx
          · exact absurd hx h2
          · exact hx
        cases hscan : GameState.check_five_in_row s with
        | none => exact absurd hscan (GameState.scan_complete s (Or.inr rfl) hfive)
        | some q =>
          have hs := GameState.scan_sound s hscan
          rcases hs.1 with h' | h'
          · exfalso
            have hoth := hother 1 (Or.inl rfl) (by rw [hm1]; decide)
            have h5 := hs.2
            rw [h', hoth.2] at h5
            exact absurd h5 (by decide)
          · rw [h']

/-- Claim C7: winner detection.  For every state reachable by legal play
from a fresh game (threshold at least one pair, board at most 19×19) and
either player `p`, `get_winner` returns `p` exactly when `p` has reached
`captures_to_win` captured pairs or owns five or more consecutive stones
along a row, column, or either diagonal (`hasFiveB` asks for a run of
five, which every longer run contains); in particular a blocked four
yields no winner, as the witness instantiates. -/
theorem c7_winner_characterisation (size : ℕ) (thr : ℤ) (tr : Bool)
    (hsize : size ≤ 19) (hthr : 1 ≤ thr) (ms : List Pos)
    (hv : GameState.valid_play (GameState.init size thr tr) ms = true)
    (p : ℤ) (hp : p = 1 ∨ p = -1) :
    GameState.get_winner (GameState.play_moves (GameState.init size thr tr) ms) = some p ↔
      (thr ≤ GameState.captures (GameState.play_moves (GameState.init size thr tr) ms) p ∨
        GameState.hasFiveB (GameState.play_moves (GameState.init size thr tr) ms) p = true) := by
  have hinit : c7Inv thr (GameState.init size thr tr) := c7Inv_init size thr tr hthr
  have hinv : c7Inv thr (GameState.play_moves (GameState.init size thr tr) ms) :=
    c7Inv_play thr ms (GameState.init size thr tr) hsize rfl hinit hv
  exact c7_final (GameState.play_moves (GameState.init size thr tr) ms) thr
    ((play_moves_config ms (GameState.init size thr tr)).2.trans rfl) hinv hp

set_option maxRecDepth 16000 in
/-- Witness for C7: the spec §8 blocked-four scenario.  Eight legal moves
on a 7×7 board leave player 1 with `(3,1) .. (3,4)` blocked at `(3,0)`
and `(3,5)`; the characterisation plus a concrete evaluation of its
right-hand side shows `get_winner` does not declare player 1. -/
theorem c7_winner_witness :
    GameState.valid_play (GameState.init 7 5 false) c7moves = true ∧
      GameState.get_winner (GameState.play_moves (GameState.init 7 5 false) c7moves) ≠
        some 1 := by
  have hv : GameState.valid_play (GameState.init 7 5 false) c7moves = true := by decide
  refine ⟨hv, fun hw => ?_⟩
  have h := (c7_winner_characterisation 7 5 false (by decide) (by decide) c7moves hv 1
    (Or.inl rfl)).mp hw
  rcases h with h | h
  · revert h; decide
  · revert h; decide
